import Mathlib

/-!
Verification of the BattleQueue game core (a2_battle_queue.py, a2_playstyle.py,
a2_characters.py, a2_skills.py).

The embedding is value-level: the two duel participants are the sides `A` and
`B`; a `Character` object is represented by its side together with the mutable
statistics (`hp`, `sp`) stored in the queue state, and object identity between
the two participants becomes equality of sides.  The combatant classes covered
are the two concrete classes exercised by the queue and search modules, `Rogue`
and `Mage` (the spec declares concrete combatant types an external
collaborator).  A Python exception (IndexError from `list.pop(0)` on an empty
list, AttributeError from calling a method on `None`) is modelled as `none`.
-/

set_option maxRecDepth 10000

/-- The two duel participants ("sides").  Object identity between the two
participants of one game is equality of sides. -/
inductive Side where
  | A
  | B
deriving DecidableEq, Repr

def Side.other : Side → Side
  | .A => .B
  | .B => .A

/-- The concrete character classes used with the queue and the engines. -/
inductive CClass where
  | rogue
  | mage
deriving DecidableEq, Repr

/-- The two moves: 'A' (attack) and 'S' (special_attack). -/
inductive Move where
  | attack
  | special
deriving DecidableEq, Repr

/-- Result labels of `select_attack`: 'A', 'S' or 'X'. -/
inductive Label where
  | A
  | S
  | X
deriving DecidableEq, Repr

/-- The mutable statistics of a `Character` (a2_characters.py): its class and
its current `_hp` and `_sp`.  Both are natural numbers: hp is clamped at 0 by
`apply_damage`, and the engines only ever spend sp that the validity check
`is_valid_action` has confirmed is available. -/
structure Chr where
  cls : CClass
  hp : Nat
  sp : Nat
deriving DecidableEq, Repr

/-- `Skill.get_sp_cost` for the four skills (a2_skills.py):
RogueAttack 3, RogueSpecial 10, MageAttack 5, MageSpecial 30. -/
def sp_cost : CClass → Move → Nat
  | .rogue, .attack => 3
  | .rogue, .special => 10
  | .mage, .attack => 5
  | .mage, .special => 30

/-- Skill damage (a2_skills.py): RogueAttack 15, RogueSpecial 20,
MageAttack 20, MageSpecial 40. -/
def damage_of : CClass → Move → Nat
  | .rogue, .attack => 15
  | .rogue, .special => 20
  | .mage, .attack => 20
  | .mage, .special => 40

/-- `_defense` (a2_characters.py): Rogue 10, Mage 8. -/
def defense : CClass → Nat
  | .rogue => 10
  | .mage => 8

/-- `Character.is_valid_action`: the skill's sp cost is at most the current sp. -/
def is_valid_action (c : Chr) (m : Move) : Bool :=
  sp_cost c.cls m ≤ c.sp

/-- `Character.get_available_actions() != []`: some skill is affordable. -/
def has_available_action (c : Chr) : Bool :=
  is_valid_action c .attack || is_valid_action c .special

/-- `BattleQueue` (a2_battle_queue.py): the turn sequence `_content`, the first
distinguished participant `_p1` (None before the first add), and the statistics
of the two participants.  `_p2` is `_p1`'s enemy, i.e. the other side. -/
structure BattleQueue where
  content : List Side
  p1 : Option Side
  chrA : Chr
  chrB : Chr
deriving DecidableEq, Repr

/-- Look up the character of a side. -/
def BattleQueue.chr (s : BattleQueue) : Side → Chr
  | .A => s.chrA
  | .B => s.chrB

/-- Replace the character of a side. -/
def BattleQueue.setChr (s : BattleQueue) : Side → Chr → BattleQueue
  | .A, c => { s with chrA := c }
  | .B, c => { s with chrB := c }

/-- `BattleQueue._clean_queue`: pop leading entries that have no available
action.  Only `_content` is touched. -/
def BattleQueue.clean_queue (s : BattleQueue) : BattleQueue :=
  { s with content := s.content.dropWhile (fun sd => !has_available_action (s.chr sd)) }

/-- `BattleQueue.add`: append to `_content`; on the very first add record
`_p1 := character` (and `_p2 := character.enemy`). -/
def BattleQueue.add (s : BattleQueue) (sd : Side) : BattleQueue :=
  { s with content := s.content ++ [sd], p1 := s.p1 <|> some sd }

/-- `BattleQueue.peek`: clean, then the head of `_content`, or `_p1` (possibly
None) when the cleaned sequence is empty. -/
def BattleQueue.peek (s : BattleQueue) : Option Side :=
  match s.clean_queue.content with
  | x :: _ => some x
  | [] => s.p1

/-- `BattleQueue.remove` as a state transformer: clean, then pop the front.
`none` models the IndexError of `[].pop(0)`. -/
def BattleQueue.remove (s : BattleQueue) : Option BattleQueue :=
  match s.clean_queue.content with
  | _ :: t => some { s.clean_queue with content := t }
  | [] => none

/-- `BattleQueue.is_empty` (as a value: cleaning does not change any value
observed later, because every observation cleans first). -/
def BattleQueue.is_empty (s : BattleQueue) : Bool :=
  s.clean_queue.content = []

/-- `BattleQueue.is_over`.  `none` models the AttributeError of
`self._p1.get_hp()` when `_p1` is None and the queue is not empty. -/
def BattleQueue.is_over (s : BattleQueue) : Option Bool :=
  if s.is_empty then some true
  else
    match s.p1 with
    | none => none
    | some p => some (decide ((s.chr p).hp = 0) || decide ((s.chr p.other).hp = 0))

/-- `BattleQueue.get_winner`.  Outer `none` is an exception; the inner option
is the Python return value (None = no winner).  Note the source returns `_p2`
whenever `_p1.get_hp() == 0`, even when `_p2`'s hp is also 0. -/
def BattleQueue.get_winner (s : BattleQueue) : Option (Option Side) :=
  match s.is_over with
  | none => none
  | some over =>
    if !over then some none
    else
      match s.p1 with
      | none => none
      | some p =>
        some (if (s.chr p).hp = 0 then some p.other
              else if (s.chr p.other).hp = 0 then some p
              else none)

/-- The `battle_queue.add` calls a skill performs, in call order: NormalAttack
(both classes) adds the caster; RogueSpecial adds the caster twice; MageSpecial
adds the target then the caster. -/
def skill_adds (cls : CClass) (m : Move) (actor : Side) : List Side :=
  match cls, m with
  | .rogue, .attack => [actor]
  | .mage, .attack => [actor]
  | .rogue, .special => [actor, actor]
  | .mage, .special => [actor.other, actor]

/-- `Skill.use` for the four skills, applied by `attack()`/`special_attack()`
of the head combatant: `_deal_damage` (caster sp -= cost; target hp -= (damage
- target defense), clamped at 0) followed by the skill's `battle_queue.add`
calls. -/
def apply_skill (s : BattleQueue) (actor : Side) (m : Move) : BattleQueue :=
  let c := s.chr actor
  let e := s.chr actor.other
  let s1 := (s.setChr actor { c with sp := c.sp - sp_cost c.cls m }).setChr actor.other
      { e with hp := e.hp - (damage_of c.cls m - defense e.cls) }
  (skill_adds c.cls m actor).foldl BattleQueue.add s1

/-- One hypothetical move of the search engines (shared by `get_state_score`,
`removed_helper` and both `select_attack`s): clone the queue, apply the move to
the clone's head, then `if copy.peek().get_available_actions() != []:
copy.remove()`.  The clone is value-identical, so it is elided; the clean
performed by the peeks before the move is made explicit.  `none` models a crash
(peek returned None and a method was called on it, or `remove` popped an empty
list). -/
def child_after (s : BattleQueue) (m : Move) : Option BattleQueue :=
  let s0 := s.clean_queue
  match s.peek with
  | none => none
  | some actor =>
    let s1 := apply_skill s0 actor m
    match s1.peek with
    | none => none
    | some x =>
      if has_available_action (s1.chr x) then s1.remove
      else some s1.clean_queue

/-- The terminal-state score, shared verbatim by `get_state_score` and the
terminal branch of `iterative_get_score`:
`peek().get_hp() if get_winner() == peek() else -1 * get_winner().get_hp()`
when there is a winner, else 0. -/
def terminal_score (s : BattleQueue) : Option Int :=
  match s.get_winner with
  | none => none
  | some none => some 0
  | some (some w) =>
    some (if s.peek = some w then ((s.chr w).hp : Int) else -((s.chr w).hp : Int))

/-- Sum of both participants' sp: the termination measure of the game tree
(every applied move costs at least 3 sp and no skill restores sp). -/
def spSum (s : BattleQueue) : Nat :=
  s.chrA.sp + s.chrB.sp

/-- One scored engine branch (shared by `get_state_score` and both
`select_attack`s): when the move is affordable at the acting combatant, build
the child and score it with `f`, negated when the child's peek differs (by
object identity) from the actor; otherwise the branch keeps its sentinel. -/
def score_branch (f : BattleQueue → Option Int) (s : BattleQueue) (actor : Side)
    (m : Move) (sentinel : Int) : Option Int :=
  if is_valid_action (s.chr actor) m then
    match child_after s m with
    | none => none
    | some ch => (f ch).map (fun v => if ch.peek = some actor then v else -v)
  else some sentinel

/-- `get_state_score` (a2_playstyle.py), fuelled.  Non-terminal: try 'S' on one
clone (sentinel -42423232424 when unaffordable) and 'A' on another (sentinel
-64545353434), each score negated when the clone's new peek differs (by object
identity) from the acting combatant, and return `max(copy2_score, copy1_score)`
with copy1 = 'S', copy2 = 'A'. -/
def get_state_scoreF : Nat → BattleQueue → Option Int
  | 0, _ => none
  | n + 1, s =>
    match s.is_over with
    | none => none
    | some true => terminal_score s
    | some false =>
      match s.p1 with
      | none => none
      | some _ =>
        match s.peek with
        | none => none
        | some actor =>
          match score_branch (get_state_scoreF n) s actor .special (-42423232424) with
          | none => none
          | some c1 =>
            match score_branch (get_state_scoreF n) s actor .attack (-64545353434) with
            | none => none
            | some c2 => some (max c2 c1)

/-- `get_state_score`: the fuel `spSum s + 1` always suffices, because each
recursion step removes at least 3 sp from the acting side. -/
def get_state_score (s : BattleQueue) : Option Int :=
  get_state_scoreF (spSum s + 1) s

/-- `removed_helper` (a2_playstyle.py): expand a non-terminal node into its
children, the 'A' child first then the 'S' child, each built exactly like
`child_after`; `none` models a crash during expansion. -/
def helper_children (s : BattleQueue) (actor : Side) : Option (List BattleQueue) :=
  match (if is_valid_action (s.chr actor) .attack then
           (child_after s .attack).map (fun c => [c])
         else some []) with
  | none => none
  | some l1 =>
    match (if is_valid_action (s.chr actor) .special then
             (child_after s .special).map (fun c => [c])
           else some []) with
    | none => none
    | some l2 => some (l1 ++ l2)

/-- The per-child term of the iterative fold:
`child.score if type(child.state.peek()) == type(player) else -1 * child.score`
— the sign test compares the character classes (Python types) of the heads,
with `type(None)` never equal to a character class. -/
def iter_child_score (f : BattleQueue → Option Int) (s : BattleQueue) (actor : Side)
    (c : BattleQueue) : Option Int :=
  (f c).map (fun v =>
    if (c.peek).map (fun sd => (c.chr sd).cls) = some ((s.chr actor).cls)
    then v else -v)

/-- `iterative_get_score` (a2_playstyle.py), fuelled: the denotation of the
explicit-stack loop.  Each popped node is either terminal (scored by
`terminal_score`), unexpanded (expanded by `removed_helper` into the 'A' child
then the 'S' child), or folded over its fully resolved children by
`max([...])`.  Children are resolved before the parent is revisited, so the
loop computes exactly this recursion; `max` of an empty children list is the
ValueError crash. -/
def iterative_get_scoreF : Nat → BattleQueue → Option Int
  | 0, _ => none
  | n + 1, s =>
    match s.is_over with
    | none => none
    | some true => terminal_score s
    | some false =>
      match s.peek with
      | none => none
      | some actor =>
        match helper_children s actor with
        | none => none
        | some cs =>
          match cs.mapM (iter_child_score (iterative_get_scoreF n) s actor) with
          | none => none
          | some scores =>
            match scores with
            | [] => none
            | x :: xs => some (xs.foldl max x)

/-- `iterative_get_score`: the loop starts with `Tree(battle_queue.copy())`,
and `copy()` raises when `_p1` is None. -/
def iterative_get_score (s : BattleQueue) : Option Int :=
  match s.p1 with
  | none => none
  | some _ => iterative_get_scoreF (spSum s + 1) s

/-- The 'A'-branch score of `select_attack` (both engines): sentinel -5445543
when 'A' is unaffordable, otherwise the score of the child, negated when the
child's peek differs (by identity) from the acting combatant. -/
def select_scoreA (f : BattleQueue → Option Int) (s : BattleQueue) : Option Int :=
  match s.peek with
  | none => none
  | some actor => score_branch f s actor .attack (-5445543)

/-- The 'S'-branch score of `select_attack` (both engines): sentinel -6476444
when 'S' is unaffordable. -/
def select_scoreS (f : BattleQueue → Option Int) (s : BattleQueue) : Option Int :=
  match s.peek with
  | none => none
  | some actor => score_branch f s actor .special (-6476444)

/-- `select_attack` of `RecursiveMinimax` and `IterativeMinimax` share this
text, differing only in the score function: compute the 'A' branch, then the
'S' branch, `best_score = max(copy2_score, copy1_score)` and
`'A' if best_score == copy1_score else 'S' if best_score == copy2_score else 'X'`. -/
def select_attack_with (f : BattleQueue → Option Int) (s : BattleQueue) : Option Label :=
  match s.p1 with
  | none => none
  | some _ =>
    match select_scoreA f s with
    | none => none
    | some a =>
      match select_scoreS f s with
      | none => none
      | some s2 =>
        some (if max s2 a = a then Label.A else if max s2 a = s2 then Label.S else Label.X)

/-- `RecursiveMinimax.select_attack`. -/
def RecursiveMinimax.select_attack (s : BattleQueue) : Option Label :=
  select_attack_with get_state_score s

/-- `IterativeMinimax.select_attack`. -/
def IterativeMinimax.select_attack (s : BattleQueue) : Option Label :=
  select_attack_with iterative_get_score s

/-! ## Histories of public operations on a plain BattleQueue (for the peek claim) -/

/-- A public operation on a plain `BattleQueue`: `add` a character or `remove`. -/
inductive QOp where
  | add (sd : Side)
  | remove
deriving DecidableEq, Repr

/-- A freshly constructed `BattleQueue` (`__init__`): empty content, `_p1 = None`. -/
def initBQ (a b : Chr) : BattleQueue :=
  ⟨[], none, a, b⟩

/-- Execute one public operation; `none` models an uncaught exception. -/
def QStep : QOp → BattleQueue → Option BattleQueue
  | .add sd, s => some (s.add sd)
  | .remove, s => s.remove

/-- Execute a sequence of public operations. -/
def QExec : List QOp → BattleQueue → Option BattleQueue
  | [], s => some s
  | op :: ops, s =>
    match QStep op s with
    | none => none
    | some s1 => QExec ops s1

/-! ## RestrictedBattleQueue -/

/-- `RestrictedBattleQueue`: a `BattleQueue` together with the parallel
eligibility ledger `_can_add` ('yes' = `true`). -/
structure RestrictedBattleQueue where
  content : List Side
  can_add : List Bool
  p1 : Option Side
  chrA : Chr
  chrB : Chr
deriving DecidableEq, Repr

/-- Character lookup, as for `BattleQueue`. -/
def RestrictedBattleQueue.chr (s : RestrictedBattleQueue) : Side → Chr
  | .A => s.chrA
  | .B => s.chrB

/-- `_clean_queue` on a `RestrictedBattleQueue`: inherited from `BattleQueue`,
it pops leading no-action entries from `_content` but does NOT touch
`_can_add`. -/
def RestrictedBattleQueue.clean_queue (s : RestrictedBattleQueue) : RestrictedBattleQueue :=
  { s with content := s.content.dropWhile (fun sd => !has_available_action (s.chr sd)) }

/-- Append an entry together with its ledger flag (`super().add` followed by
the flag append; `add` also sets `_p1` on the very first insertion). -/
def RestrictedBattleQueue.appendEntry (s : RestrictedBattleQueue) (c : Side) (f : Bool) :
    RestrictedBattleQueue :=
  { s with content := s.content ++ [c], can_add := s.can_add ++ [f],
           p1 := s.p1 <|> some c }

/-- `RestrictedBattleQueue.add`: count the occurrences of `character` at
content positions whose ledger flag (at the same index) is 'yes', then the
rule chain: empty sequence → append eligible; ledger head 'no' → no mutation
(except that the trailing `if not self._p1` lines still run); absent from the
sequence → append eligible; equals the head with fewer than two counted 'yes'
occurrences → append eligible; otherwise append ineligible.  `none` models the
IndexError when the ledger is shorter than the sequence. -/
def RestrictedBattleQueue.add (s : RestrictedBattleQueue) (c : Side) :
    Option RestrictedBattleQueue :=
  if s.content.length ≤ s.can_add.length then
    let cnt := (s.content.zip s.can_add).countP (fun q => q.1 == c && q.2)
    if s.content = [] then
      some (s.appendEntry c true)
    else
      match s.can_add.head? with
      | none => none
      | some false => some { s with p1 := s.p1 <|> some c }
      | some true =>
        if c ∉ s.content then some (s.appendEntry c true)
        else if s.content.head? = some c ∧ cnt ≠ 2 then some (s.appendEntry c true)
        else some (s.appendEntry c false)
  else none

/-- `RestrictedBattleQueue.remove`: clean, drop
`1 + (len(_can_add) - len(_content))` leading ledger entries, then
`super().remove()` (pop the front; IndexError → `none`).  The natural
subtraction agrees with the Python slice on every state whose ledger is at
least as long as the sequence — an invariant of all reachable states. -/
def RestrictedBattleQueue.remove (s : RestrictedBattleQueue) :
    Option RestrictedBattleQueue :=
  let s1 := s.clean_queue
  let start := 1 + (s.can_add.length - s1.content.length)
  match s1.content with
  | [] => none
  | _ :: t => some { s1 with content := t, can_add := s.can_add.drop start }

/-- A public operation on a `RestrictedBattleQueue`. -/
inductive ROp where
  | add (sd : Side)
  | remove
  | peek
  | is_empty
  | is_over
  | copy
deriving DecidableEq, Repr

/-- A freshly constructed `RestrictedBattleQueue`. -/
def initRBQ (a b : Chr) : RestrictedBattleQueue :=
  ⟨[], [], none, a, b⟩

/-- Execute one public operation, keeping only its effect on the state:
`peek`/`is_empty` clean; `is_over` cleans and then reads `_p1.get_hp()`
(AttributeError → `none` when `_p1` is None on a non-empty queue); `copy`
builds a value-identical clone (`_p1.copy(...)` raises when `_p1` is None). -/
def RStep : ROp → RestrictedBattleQueue → Option RestrictedBattleQueue
  | .add sd, s => s.add sd
  | .remove, s => s.remove
  | .peek, s => some s.clean_queue
  | .is_empty, s => some s.clean_queue
  | .is_over, s =>
    let s1 := s.clean_queue
    if s1.content = [] then some s1
    else
      match s.p1 with
      | none => none
      | some _ => some s1
  | .copy, s =>
    match s.p1 with
    | none => none
    | some _ => some s

/-- Execute a sequence of public operations on a `RestrictedBattleQueue`. -/
def RExec : List ROp → RestrictedBattleQueue → Option RestrictedBattleQueue
  | [], s => some s
  | op :: ops, s =>
    match RStep op s with
    | none => none
    | some s1 => RExec ops s1

/-- The number of occurrences of combatant `c` in the turn sequence whose
ledger entry marks them eligible.  Ledger flags are appended together with
their entries and only `remove` drops ledger entries from the front, so the
flag describing `content[i]` is `can_add[i + (len(can_add) - len(content))]`:
the ledger's trailing `len(content)` entries describe the sequence, and any
leading excess is stale flags of entries pruned by `_clean_queue`. -/
def eligible_count (s : RestrictedBattleQueue) (c : Side) : Nat :=
  ((s.content).zip (s.can_add.drop (s.can_add.length - s.content.length))).countP
    (fun q => q.1 == c && q.2)

/-! ## Heap model for `copy()` independence

The deep-independence claim is about aliasing, so here characters are mutable
cells in a store and queues hold references (store indices).  `attack()` is
modelled without a validity guard, as in the source, so hp and sp are integers
(`reduce_sp` may drive sp negative; `apply_damage` clamps hp at 0). -/

/-- A `Character` cell: class, mutable hp/sp, and the `enemy` reference. -/
structure HChr where
  cls : CClass
  hp : Int
  sp : Int
  enemy : Nat
deriving DecidableEq, Repr

/-- The store of character cells; a reference is an index. -/
abbrev World := List HChr

/-- A `BattleQueue` over references: `_content`, `_p1` and `_p2`. -/
structure HQueue where
  content : List Nat
  p1 : Option Nat
  p2 : Option Nat
deriving DecidableEq, Repr

/-- `is_valid_action` over a cell (Int sp). -/
def hvalid (c : HChr) (m : Move) : Bool :=
  (sp_cost c.cls m : Int) ≤ c.sp

/-- `get_available_actions() != []` over a cell. -/
def hHasAction (c : HChr) : Bool :=
  hvalid c .attack || hvalid c .special

/-- Reference version of `get_available_actions() != []`; a dangling
reference (impossible in closed states) counts as no action. -/
def hHasActionRef (w : World) (r : Nat) : Bool :=
  match w.get? r with
  | some c => hHasAction c
  | none => false

/-- `_clean_queue` over references. -/
def hClean (q : HQueue) (w : World) : HQueue :=
  { q with content := q.content.dropWhile (fun r => !hHasActionRef w r) }

/-- `peek` over references (after the clean that `peek` performs). -/
def hPeekVal (q : HQueue) (w : World) : Option Nat :=
  match (hClean q w).content with
  | x :: _ => some x
  | [] => q.p1

/-- `BattleQueue.add` over references: append; on the very first add set
`_p1 := character` and `_p2 := character.enemy`. -/
def hAddRef (q : HQueue) (w : World) (r : Nat) : HQueue :=
  match q.p1 with
  | some _ => { q with content := q.content ++ [r] }
  | none =>
    { content := q.content ++ [r], p1 := some r,
      p2 := (w.get? r).map (fun c => c.enemy) }

/-- The store writes of `attack()`/`special_attack()` through reference `r`:
`_deal_damage` (no affordability guard in the source). -/
def hDealDamage (w : World) (r : Nat) (m : Move) : Option (World × HChr) :=
  match w.get? r with
  | none => none
  | some c =>
    let w1 := w.set r { c with sp := c.sp - (sp_cost c.cls m : Int) }
    match w1.get? c.enemy with
    | none => none
    | some e =>
      some (w1.set c.enemy
        { e with hp := max (e.hp - ((damage_of c.cls m : Int) - (defense e.cls : Int))) 0 }, c)

/-- A move performed by the head of the queue (`q.peek().attack()` or
`q.peek().special_attack()`): peek (with its clean), deal damage, then the
skill's `battle_queue.add` calls on the caster's own queue. -/
def hMove (q : HQueue) (w : World) (m : Move) : Option (HQueue × World) :=
  let q1 := hClean q w
  match hPeekVal q w with
  | none => none
  | some r =>
    match hDealDamage w r m with
    | none => none
    | some (w2, c) =>
      match c.cls, m with
      | .rogue, .attack => some (hAddRef q1 w2 r, w2)
      | .mage, .attack => some (hAddRef q1 w2 r, w2)
      | .rogue, .special => some (hAddRef (hAddRef q1 w2 r) w2 r, w2)
      | .mage, .special => some (hAddRef (hAddRef q1 w2 c.enemy) w2 r, w2)

/-- `BattleQueue.copy()`: clone `_p1` and `_p2` into two fresh cells (mutually
linked enemies, hp/sp preserved by `_set_copy_attributes`), then replay the
content, substituting the matching clone by the identity test
`character == self._p1`.  The add/remove dance of the source leaves the new
content empty and only establishes `_p1`/`_p2`. -/
def hCopy (q : HQueue) (w : World) : Option (HQueue × World) :=
  match q.p1, q.p2 with
  | some r1, some r2 =>
    match w.get? r1, w.get? r2 with
    | some c1, some c2 =>
      let n := w.length
      let w' := w ++ [{ c1 with enemy := n + 1 }, { c2 with enemy := n }]
      some ({ content := q.content.map (fun r => if r = r1 then n else n + 1),
              p1 := some n, p2 := some (n + 1) }, w')
    | _, _ => none
  | _, _ => none

/-- The public operations a side's owner can run on its own queue: the two
moves of the current head, adds of the queue's own participants, and the
queue-observing operations. -/
inductive HOp where
  | attack
  | special
  | addP1
  | addP2
  | remove
  | peek
  | is_empty
  | is_over
  | copy
deriving DecidableEq, Repr

/-- Execute one operation on a queue-world pair. -/
def HStep : HOp → HQueue × World → Option (HQueue × World)
  | .attack, (q, w) => hMove q w .attack
  | .special, (q, w) => hMove q w .special
  | .addP1, (q, w) =>
    match q.p1 with
    | none => none
    | some r => some (hAddRef q w r, w)
  | .addP2, (q, w) =>
    match q.p2 with
    | none => none
    | some r => some (hAddRef q w r, w)
  | .remove, (q, w) =>
    match (hClean q w).content with
    | [] => none
    | _ :: t => some ({ hClean q w with content := t }, w)
  | .peek, (q, w) => some (hClean q w, w)
  | .is_empty, (q, w) => some (hClean q w, w)
  | .is_over, (q, w) =>
    let q1 := hClean q w
    if q1.content = [] then some (q1, w)
    else
      match q.p1 with
      | none => none
      | some _ => some (q1, w)
  | .copy, (q, w) => (hCopy q w).map (fun p => (q, p.2))

/-- Execute a sequence of operations on a queue-world pair. -/
def HExec : List HOp → HQueue × World → Option (HQueue × World)
  | [], p => some p
  | op :: ops, p =>
    match HStep op p with
    | none => none
    | some p1 => HExec ops p1

/-- A well-formed two-participant queue: `_p1` and `_p2` are the distinct valid
references `r1` and `r2`, mutually linked as enemies, and every content entry
is one of them. -/
def HClosed (q : HQueue) (w : World) (r1 r2 : Nat) : Prop :=
  q.p1 = some r1 ∧ q.p2 = some r2 ∧ r1 < w.length ∧ r2 < w.length ∧ r1 ≠ r2 ∧
  (w.get? r1).map HChr.enemy = some r2 ∧ (w.get? r2).map HChr.enemy = some r1 ∧
  ∀ r ∈ q.content, r = r1 ∨ r = r2

instance (q : HQueue) (w : World) (r1 r2 : Nat) : Decidable (HClosed q w r1 r2) := by
  unfold HClosed
  infer_instance

/-! ## Helper lemmas -/

/-- Repeated `add` of the same character (used to state the idempotence of the
rejected append). -/
def radd_iter (c : Side) : Nat → RestrictedBattleQueue → Option RestrictedBattleQueue
  | 0, s => some s
  | n + 1, s =>
    match RestrictedBattleQueue.add s c with
    | none => none
    | some t => radd_iter c n t

theorem QStep_p1_isSome {op : QOp} {s s' : BattleQueue}
    (h : QStep op s = some s') (hp : s.p1.isSome) : s'.p1.isSome := by
  cases op with
  | add sd =>
    simp only [QStep, BattleQueue.add, Option.some.injEq] at h
    subst h
    obtain ⟨p, hp⟩ := Option.isSome_iff_exists.mp hp
    simp [hp, Option.orElse]
  | remove =>
    simp only [QStep, BattleQueue.remove] at h
    split at h
    · cases h
      simpa [BattleQueue.clean_queue] using hp
    · cases h

theorem QStep_add_p1 {sd : Side} {s s' : BattleQueue}
    (h : QStep (QOp.add sd) s = some s') : s'.p1.isSome := by
  simp only [QStep, BattleQueue.add, Option.some.injEq] at h
  subst h
  cases hp : s.p1 <;> simp [hp, Option.orElse]

theorem QExec_p1_isSome : ∀ (ops : List QOp) (s0 s : BattleQueue),
    QExec ops s0 = some s → (s0.p1.isSome ∨ ∃ c, QOp.add c ∈ ops) → s.p1.isSome := by
  intro ops
  induction ops with
  | nil =>
    intro s0 s h hc
    simp only [QExec, Option.some.injEq] at h
    subst h
    rcases hc with h | ⟨c, hc⟩
    · exact h
    · simp at hc
  | cons op ops ih =>
    intro s0 s h hc
    simp only [QExec] at h
    split at h
    · cases h
    · rename_i s1 hs1
      rcases hc with hp | ⟨c, hc⟩
      · exact ih s1 s h (Or.inl (QStep_p1_isSome hs1 hp))
      · rcases List.mem_cons.mp hc with rfl | hmem
        · exact ih s1 s h (Or.inl (QStep_add_p1 hs1))
        · exact ih s1 s h (Or.inr ⟨c, hmem⟩)

theorem peek_isSome_of_p1 {s : BattleQueue} (hp : s.p1.isSome) : (s.peek).isSome := by
  unfold BattleQueue.peek
  split
  · simp
  · exact hp

/-! ## Claim C5: peek on histories of add/remove -/

/-- C5 (counterexample): on the empty history of public operations — a freshly
constructed `BattleQueue`, reachable by the empty sequence of add/remove
operations — `peek()` returns None, because `_p1` was never established.  The
claim "peek() never returns none for every sequence of add and remove
operations" is therefore false. -/
theorem c5_counterexample :
    QExec [] (initBQ ⟨CClass.rogue, 100, 100⟩ ⟨CClass.mage, 100, 100⟩) =
      some (initBQ ⟨CClass.rogue, 100, 100⟩ ⟨CClass.mage, 100, 100⟩) ∧
    (initBQ ⟨CClass.rogue, 100, 100⟩ ⟨CClass.mage, 100, 100⟩).peek = none := by
  decide

/-- C5 (amended): for every sequence of add and remove operations that contains
at least one add (so that a first distinguished participant exists), `peek()`
never returns None: the fallback `_p1` is established by the first add and
never cleared. -/
theorem c5_peek_never_none (a b : Chr) (ops : List QOp) (s : BattleQueue)
    (hrun : QExec ops (initBQ a b) = some s) (hadd : ∃ c, QOp.add c ∈ ops) :
    (s.peek).isSome := by
  refine peek_isSome_of_p1 (QExec_p1_isSome ops (initBQ a b) s hrun (Or.inr hadd))

/-- Witness for the amended C5 at a concrete one-add history. -/
theorem c5_witness :
    (QExec [QOp.add Side.A] (initBQ ⟨CClass.rogue, 100, 100⟩ ⟨CClass.mage, 100, 100⟩) =
        some ⟨[Side.A], some Side.A, ⟨CClass.rogue, 100, 100⟩, ⟨CClass.mage, 100, 100⟩⟩ ∧
      (∃ c, QOp.add c ∈ [QOp.add Side.A])) ∧
    ((⟨[Side.A], some Side.A, ⟨CClass.rogue, 100, 100⟩,
        ⟨CClass.mage, 100, 100⟩⟩ : BattleQueue).peek).isSome :=
  ⟨⟨by decide, ⟨Side.A, by decide⟩⟩,
    c5_peek_never_none ⟨CClass.rogue, 100, 100⟩ ⟨CClass.mage, 100, 100⟩
      [QOp.add Side.A] _ (by decide) ⟨Side.A, by decide⟩⟩

/-! ## Claim C6: rejected append is a no-op -/

/-- C6: on a non-empty `RestrictedBattleQueue` whose ledger head is marked
ineligible (and whose `_p1` is established and whose ledger is at least as long
as the sequence — both invariants of every reachable non-empty queue), `add`
of any character changes nothing: the turn sequence, ledger, distinguished
participants and statistics are exactly as before, and repeating the call any
number of times still changes nothing. -/
theorem c6_rejected_append_noop (s : RestrictedBattleQueue) (c : Side) (n : Nat)
    (h1 : s.content ≠ []) (h2 : s.can_add.head? = some false) (h3 : s.p1.isSome)
    (h4 : s.content.length ≤ s.can_add.length) :
    s.add c = some s ∧ radd_iter c n s = some s := by
  obtain ⟨p, hp⟩ := Option.isSome_iff_exists.mp h3
  have hadd : s.add c = some s := by
    unfold RestrictedBattleQueue.add
    rw [if_pos h4, if_neg h1, h2]
    simp only [hp, Option.some_orElse, Option.some.injEq]
    cases s
    simp_all
  refine ⟨hadd, ?_⟩
  induction n with
  | zero => rfl
  | succ n ih =>
    unfold radd_iter
    rw [hadd]
    exact ih

/-- Witness for C6 at a concrete rejected-append state. -/
theorem c6_witness :
    ((⟨[Side.A, Side.B], [false, true], some Side.A, ⟨CClass.rogue, 100, 100⟩,
        ⟨CClass.rogue, 100, 100⟩⟩ : RestrictedBattleQueue).content ≠ [] ∧
      (⟨[Side.A, Side.B], [false, true], some Side.A, ⟨CClass.rogue, 100, 100⟩,
        ⟨CClass.rogue, 100, 100⟩⟩ : RestrictedBattleQueue).can_add.head? = some false) ∧
    ((⟨[Side.A, Side.B], [false, true], some Side.A, ⟨CClass.rogue, 100, 100⟩,
        ⟨CClass.rogue, 100, 100⟩⟩ : RestrictedBattleQueue).add Side.A =
      some ⟨[Side.A, Side.B], [false, true], some Side.A, ⟨CClass.rogue, 100, 100⟩,
        ⟨CClass.rogue, 100, 100⟩⟩ ∧
      radd_iter Side.A 5 ⟨[Side.A, Side.B], [false, true], some Side.A,
        ⟨CClass.rogue, 100, 100⟩, ⟨CClass.rogue, 100, 100⟩⟩ =
      some ⟨[Side.A, Side.B], [false, true], some Side.A, ⟨CClass.rogue, 100, 100⟩,
        ⟨CClass.rogue, 100, 100⟩⟩) :=
  ⟨⟨by decide, by decide⟩,
    c6_rejected_append_noop _ Side.A 5 (by decide) (by decide) (by decide) (by decide)⟩

/-! ## Claim C9: simultaneous-zero terminal score -/

theorem is_over_true_of_both_zero {s : BattleQueue} {p : Side} (hp1 : s.p1 = some p)
    (hA : s.chrA.hp = 0) (hB : s.chrB.hp = 0) : s.is_over = some true := by
  unfold BattleQueue.is_over
  split
  · rfl
  · rw [hp1]
    cases p <;> simp [BattleQueue.chr, Side.other, hA, hB]

theorem terminal_score_of_both_zero {s : BattleQueue} {p : Side} (hp1 : s.p1 = some p)
    (hA : s.chrA.hp = 0) (hB : s.chrB.hp = 0) : terminal_score s = some 0 := by
  have h0 : ∀ q : Side, (s.chr q).hp = 0 := by
    intro q
    cases q <;> simpa [BattleQueue.chr]
  unfold terminal_score BattleQueue.get_winner
  rw [is_over_true_of_both_zero hp1 hA hB, hp1]
  simp [h0]

/-- C9: on every state whose two distinguished participants both have hp 0
(with `_p1` established), the terminal score computed by `get_state_score` and
by `iterative_get_score` is 0, regardless of which combatant the queue's peek
reports: `get_winner` reports `_p2`, but either sign applied to `_p2`'s zero
hp yields 0. -/
theorem c9_simultaneous_zero_scores_zero (s : BattleQueue) (p : Side)
    (hp1 : s.p1 = some p) (hA : s.chrA.hp = 0) (hB : s.chrB.hp = 0) :
    get_state_score s = some 0 ∧ iterative_get_score s = some 0 := by
  have hover := is_over_true_of_both_zero hp1 hA hB
  have hterm := terminal_score_of_both_zero hp1 hA hB
  constructor
  · unfold get_state_score
    simp [get_state_scoreF, hover, hterm]
  · unfold iterative_get_score
    rw [hp1]
    simp [iterative_get_scoreF, hover, hterm]

/-- Witness for C9 at a concrete simultaneous-zero state. -/
theorem c9_witness :
    ((⟨[Side.A], some Side.A, ⟨CClass.rogue, 0, 50⟩,
        ⟨CClass.mage, 0, 50⟩⟩ : BattleQueue).p1 = some Side.A ∧
      (⟨[Side.A], some Side.A, ⟨CClass.rogue, 0, 50⟩,
        ⟨CClass.mage, 0, 50⟩⟩ : BattleQueue).chrA.hp = 0) ∧
    (get_state_score ⟨[Side.A], some Side.A, ⟨CClass.rogue, 0, 50⟩,
        ⟨CClass.mage, 0, 50⟩⟩ = some 0 ∧
      iterative_get_score ⟨[Side.A], some Side.A, ⟨CClass.rogue, 0, 50⟩,
        ⟨CClass.mage, 0, 50⟩⟩ = some 0) :=
  ⟨⟨by decide, by decide⟩,
    c9_simultaneous_zero_scores_zero _ Side.A (by decide) (by decide) (by decide)⟩

/-! ## Claim C3: get_winner -/

/-- C3 (counterexample): on a terminal state in which BOTH distinguished
participants have hp 0, `get_winner` returns the second participant `_p2`,
not None: the source tests `if self._p1.get_hp() == 0: return self._p2`
without checking `_p2`'s hp. -/
theorem c3_counterexample :
    BattleQueue.get_winner
        ⟨[Side.A], some Side.A, ⟨CClass.rogue, 0, 50⟩, ⟨CClass.mage, 0, 50⟩⟩ =
      some (some Side.B) ∧
    some (some Side.B) ≠ (some (none : Option Side)) := by
  decide

/-- C3 (amended): on every terminal state with established participants,
`get_winner` returns: the second participant `_p2` whenever `_p1`'s hp is 0
(even when `_p2`'s hp is also 0 — the simultaneous-zero case yields `_p2`,
not None); `_p1` when only `_p2`'s hp is 0; and None when the state is
terminal with neither hp at 0.  In particular the winner is the participant
with nonzero hp whenever exactly one hp is zero. -/
theorem c3_get_winner_cases (s : BattleQueue) (p : Side)
    (hp1 : s.p1 = some p) (hover : s.is_over = some true) :
    ((s.chr p).hp = 0 → s.get_winner = some (some p.other)) ∧
    ((s.chr p).hp ≠ 0 → (s.chr p.other).hp = 0 → s.get_winner = some (some p)) ∧
    ((s.chr p).hp ≠ 0 → (s.chr p.other).hp ≠ 0 → s.get_winner = some none) := by
  unfold BattleQueue.get_winner
  rw [hover, hp1]
  exact ⟨fun h0 => by simp [h0], fun h0 h1 => by simp [h0, h1],
    fun h0 h1 => by simp [h0, h1]⟩

/-- Witness for the amended C3 at a concrete exactly-one-zero terminal state. -/
theorem c3_witness :
    ((⟨[Side.A], some Side.A, ⟨CClass.rogue, 40, 50⟩,
        ⟨CClass.mage, 0, 50⟩⟩ : BattleQueue).p1 = some Side.A ∧
      (⟨[Side.A], some Side.A, ⟨CClass.rogue, 40, 50⟩,
        ⟨CClass.mage, 0, 50⟩⟩ : BattleQueue).is_over = some true) ∧
    (((⟨[Side.A], some Side.A, ⟨CClass.rogue, 40, 50⟩,
        ⟨CClass.mage, 0, 50⟩⟩ : BattleQueue).chr Side.A).hp ≠ 0 →
      ((⟨[Side.A], some Side.A, ⟨CClass.rogue, 40, 50⟩,
        ⟨CClass.mage, 0, 50⟩⟩ : BattleQueue).chr Side.A.other).hp = 0 →
      (⟨[Side.A], some Side.A, ⟨CClass.rogue, 40, 50⟩,
        ⟨CClass.mage, 0, 50⟩⟩ : BattleQueue).get_winner = some (some Side.A)) :=
  ⟨⟨by decide, by decide⟩,
    (c3_get_winner_cases _ Side.A (by decide) (by decide)).2.1⟩

/-! ## Claim C2: the no-legal-move result -/

/-- C2 (code bug): on a state whose head combatant can afford neither 'A' nor
'S', both `RecursiveMinimax.select_attack` and `IterativeMinimax.select_attack`
return 'A', not the documented no-legal-move result 'X': both branch scores
stay at their sentinels and `max(-6476444, -5445543) = -5445543` equals the
'A' sentinel, so the final conditional picks 'A' and the 'X' arm is dead code.
This contradicts the inherited contract of `Playstyle.select_attack`
("Return 'X' if a valid move cannot be found"). -/
theorem c2_no_affordable_move_returns_A :
    RecursiveMinimax.select_attack
        ⟨[Side.A], some Side.A, ⟨CClass.rogue, 100, 2⟩, ⟨CClass.rogue, 100, 2⟩⟩ =
      some Label.A ∧
    IterativeMinimax.select_attack
        ⟨[Side.A], some Side.A, ⟨CClass.rogue, 100, 2⟩, ⟨CClass.rogue, 100, 2⟩⟩ =
      some Label.A := by
  decide

/-! ## Claim C10: tie-breaking prefers 'A' -/

/-- C10: in both engines' `select_attack`, when both moves are affordable and
the two computed branch scores are equal, the returned label is 'A':
`best_score = max(copy2_score, copy1_score)` equals `copy1_score` and the
conditional tests the 'A' branch first. -/
theorem c10_tie_prefers_attack (s : BattleQueue) (actor : Side) (v w : Int)
    (hp1 : s.p1.isSome) (hpeek : s.peek = some actor)
    (hvA : is_valid_action (s.chr actor) .attack = true)
    (hvS : is_valid_action (s.chr actor) .special = true)
    (hrA : select_scoreA get_state_score s = some v)
    (hrS : select_scoreS get_state_score s = some v)
    (hiA : select_scoreA iterative_get_score s = some w)
    (hiS : select_scoreS iterative_get_score s = some w) :
    RecursiveMinimax.select_attack s = some Label.A ∧
    IterativeMinimax.select_attack s = some Label.A := by
  obtain ⟨p, hp⟩ := Option.isSome_iff_exists.mp hp1
  constructor
  · unfold RecursiveMinimax.select_attack select_attack_with
    rw [hp, hrA, hrS]
    simp
  · unfold IterativeMinimax.select_attack select_attack_with
    rw [hp, hiA, hiS]
    simp

/-- Witness for C10 at a concrete state where both moves are affordable and
both branch scores equal 100 (for both engines). -/
theorem c10_witness :
    ((⟨[Side.A, Side.B], some Side.A, ⟨CClass.rogue, 100, 13⟩,
        ⟨CClass.rogue, 5, 100⟩⟩ : BattleQueue).peek = some Side.A ∧
      select_scoreA get_state_score ⟨[Side.A, Side.B], some Side.A,
        ⟨CClass.rogue, 100, 13⟩, ⟨CClass.rogue, 5, 100⟩⟩ = some 100 ∧
      select_scoreS get_state_score ⟨[Side.A, Side.B], some Side.A,
        ⟨CClass.rogue, 100, 13⟩, ⟨CClass.rogue, 5, 100⟩⟩ = some 100) ∧
    (RecursiveMinimax.select_attack ⟨[Side.A, Side.B], some Side.A,
        ⟨CClass.rogue, 100, 13⟩, ⟨CClass.rogue, 5, 100⟩⟩ = some Label.A ∧
      IterativeMinimax.select_attack ⟨[Side.A, Side.B], some Side.A,
        ⟨CClass.rogue, 100, 13⟩, ⟨CClass.rogue, 5, 100⟩⟩ = some Label.A) :=
  ⟨⟨by decide, by decide, by decide⟩,
    c10_tie_prefers_attack _ Side.A 100 100 (by decide) (by decide) (by decide)
      (by decide) (by decide) (by decide) (by decide) (by decide)⟩

/-! ## Claim C1 (counterexample): the engines disagree on same-class matchups -/

/-- C1 (counterexample): on a state whose two participants are both Rogues
(same character class), the recursive engine scores +100 while the iterative
engine scores -100: the recursive engine flips the child score when the child's
head is a different *object* from the actor, but the iterative fold flips only
when the child's head has a different *type*, which never happens in a
same-class matchup. -/
theorem c1_counterexample :
    get_state_score ⟨[Side.A, Side.B], some Side.A, ⟨CClass.rogue, 100, 6⟩,
        ⟨CClass.rogue, 5, 100⟩⟩ = some 100 ∧
    iterative_get_score ⟨[Side.A, Side.B], some Side.A, ⟨CClass.rogue, 100, 6⟩,
        ⟨CClass.rogue, 5, 100⟩⟩ = some (-100) := by
  decide

/-! ## Claim C4 (counterexample): ledger/sequence misalignment -/

/-- C4 (counterexample): from a fresh `RestrictedBattleQueue`, `add` a
combatant with no affordable action, then call `is_empty()`: the inherited
`_clean_queue` prunes the entry from the sequence but not from the ledger,
leaving a sequence of length 0 against a ledger of length 1 — the ledger does
not always have the same length as the sequence. -/
theorem c4_counterexample :
    (RExec [ROp.add Side.A, ROp.is_empty]
        (initRBQ ⟨CClass.rogue, 100, 0⟩ ⟨CClass.rogue, 100, 100⟩)).map
      (fun s => (s.content.length, s.can_add.length)) = some (0, 1) := by
  decide

/-! ## Claim C7 (counterexample): three simultaneously eligible occurrences -/

/-- C7 (counterexample): a reachable history after which combatant A has THREE
eligible occurrences.  `peek` prunes two no-action entries of B from the
sequence but leaves their stale flags ('yes', 'no') at the front of the ledger;
the counting loop of `add` then reads `can_add[i]` for content positions `i`,
i.e. the stale flags instead of A's own, undercounts A's eligible occurrences
as 1, and appends a third 'yes' entry. -/
theorem c7_counterexample :
    (RExec [ROp.add Side.A, ROp.add Side.B, ROp.add Side.B, ROp.remove, ROp.add Side.A,
        ROp.peek, ROp.add Side.A, ROp.add Side.A]
        (initRBQ ⟨CClass.rogue, 100, 100⟩ ⟨CClass.rogue, 100, 0⟩)).map
      (fun s => eligible_count s Side.A) = some 3 := by
  decide

/-! ## Structural lemmas for the engine equivalence -/

theorem dropWhile_head_false {α : Type} (p : α → Bool) :
    ∀ (l : List α) (x : α) (t : List α), l.dropWhile p = x :: t → p x = false := by
  intro l
  induction l with
  | nil => intro x t h; simp [List.dropWhile] at h
  | cons a l ih =>
    intro x t h
    by_cases hp : p a
    · rw [List.dropWhile_cons_of_pos hp] at h
      exact ih x t h
    · rw [List.dropWhile_cons_of_neg hp] at h
      cases h
      simpa using hp

theorem Side.other_ne (x : Side) : x.other ≠ x := by
  cases x <;> decide

theorem BattleQueue.setChr_chr_self (s : BattleQueue) (y : Side) (c : Chr) :
    (s.setChr y c).chr y = c := by
  cases y <;> rfl

theorem BattleQueue.setChr_chr_other (s : BattleQueue) {x y : Side} (c : Chr)
    (h : x ≠ y) : (s.setChr y c).chr x = s.chr x := by
  cases x <;> cases y <;> first | rfl | exact absurd rfl h

theorem BattleQueue.setChr_p1 (s : BattleQueue) (y : Side) (c : Chr) :
    (s.setChr y c).p1 = s.p1 := by
  cases y <;> rfl

theorem BattleQueue.add_chr (s : BattleQueue) (sd x : Side) :
    (s.add sd).chr x = s.chr x := by
  cases x <;> rfl

theorem BattleQueue.add_p1_some {s : BattleQueue} {p : Side} (sd : Side)
    (h : s.p1 = some p) : (s.add sd).p1 = some p := by
  simp [BattleQueue.add, h]

theorem foldl_add_chr : ∀ (l : List Side) (s : BattleQueue) (x : Side),
    (l.foldl BattleQueue.add s).chr x = s.chr x := by
  intro l
  induction l with
  | nil => intro s x; rfl
  | cons a l ih =>
    intro s x
    simp only [List.foldl_cons]
    rw [ih, BattleQueue.add_chr]

theorem foldl_add_p1_some : ∀ (l : List Side) (s : BattleQueue) (p : Side),
    s.p1 = some p → (l.foldl BattleQueue.add s).p1 = some p := by
  intro l
  induction l with
  | nil => intro s p h; exact h
  | cons a l ih =>
    intro s p h
    simp only [List.foldl_cons]
    exact ih _ p (BattleQueue.add_p1_some a h)

theorem clean_queue_chr (s : BattleQueue) (x : Side) : (s.clean_queue).chr x = s.chr x := by
  cases x <;> rfl

theorem clean_queue_p1 (s : BattleQueue) : (s.clean_queue).p1 = s.p1 := rfl

theorem remove_facts {s s' : BattleQueue} (h : s.remove = some s') :
    (∀ x, s'.chr x = s.chr x) ∧ s'.p1 = s.p1 := by
  unfold BattleQueue.remove at h
  split at h
  · cases h
    exact ⟨fun x => by cases x <;> rfl, rfl⟩
  · cases h

theorem apply_skill_chr_cls (s : BattleQueue) (actor : Side) (m : Move) (x : Side) :
    ((apply_skill s actor m).chr x).cls = (s.chr x).cls := by
  unfold apply_skill
  rw [foldl_add_chr]
  by_cases hx : x = actor
  · subst hx
    rw [BattleQueue.setChr_chr_other _ _ (Ne.symm (Side.other_ne x)),
      BattleQueue.setChr_chr_self]
  · have hxo : x = actor.other := by
      cases x <;> cases actor <;> first | rfl | exact absurd rfl hx
    subst hxo
    rw [BattleQueue.setChr_chr_self]

theorem apply_skill_hp_actor (s : BattleQueue) (actor : Side) (m : Move) :
    ((apply_skill s actor m).chr actor).hp = (s.chr actor).hp := by
  unfold apply_skill
  rw [foldl_add_chr]
  rw [BattleQueue.setChr_chr_other _ _ (Ne.symm (Side.other_ne actor)),
    BattleQueue.setChr_chr_self]

theorem apply_skill_hp_other (s : BattleQueue) (actor : Side) (m : Move) :
    ((apply_skill s actor m).chr actor.other).hp ≤ (s.chr actor.other).hp := by
  unfold apply_skill
  rw [foldl_add_chr]
  rw [BattleQueue.setChr_chr_self]
  exact Nat.sub_le _ _

theorem apply_skill_sp_actor (s : BattleQueue) (actor : Side) (m : Move) :
    ((apply_skill s actor m).chr actor).sp = (s.chr actor).sp - sp_cost ((s.chr actor).cls) m := by
  unfold apply_skill
  rw [foldl_add_chr]
  rw [BattleQueue.setChr_chr_other _ _ (Ne.symm (Side.other_ne actor)),
    BattleQueue.setChr_chr_self]

theorem apply_skill_sp_other (s : BattleQueue) (actor : Side) (m : Move) :
    ((apply_skill s actor m).chr actor.other).sp = (s.chr actor.other).sp := by
  unfold apply_skill
  rw [foldl_add_chr]
  rw [BattleQueue.setChr_chr_self]

theorem apply_skill_p1_some {s : BattleQueue} {p : Side} (actor : Side) (m : Move)
    (h : s.p1 = some p) : (apply_skill s actor m).p1 = some p := by
  unfold apply_skill
  refine foldl_add_p1_some _ _ p ?_
  rw [BattleQueue.setChr_p1, BattleQueue.setChr_p1]
  exact h

theorem apply_skill_hp_le (s : BattleQueue) (actor : Side) (m : Move) (x : Side) :
    ((apply_skill s actor m).chr x).hp ≤ (s.chr x).hp := by
  by_cases hx : x = actor
  · subst hx
    exact le_of_eq (apply_skill_hp_actor s x m)
  · have hxo : x = actor.other := by
      cases x <;> cases actor <;> first | rfl | exact absurd rfl hx
    subst hxo
    exact apply_skill_hp_other s actor m

theorem child_after_core {s : BattleQueue} {m : Move} {ch : BattleQueue}
    (h : child_after s m = some ch) :
    ∃ actor, s.peek = some actor ∧
      (∀ x, ch.chr x = (apply_skill s.clean_queue actor m).chr x) ∧
      ch.p1 = (apply_skill s.clean_queue actor m).p1 := by
  unfold child_after at h
  split at h
  · cases h
  · rename_i actor hpk
    refine ⟨actor, hpk, ?_⟩
    dsimp only at h
    split at h
    · cases h
    · split at h
      · obtain ⟨hchr, hp1⟩ := remove_facts h
        exact ⟨hchr, hp1⟩
      · cases h
        exact ⟨fun x => clean_queue_chr _ x, rfl⟩

theorem child_after_cls {s : BattleQueue} {m : Move} {ch : BattleQueue}
    (h : child_after s m = some ch) (x : Side) : (ch.chr x).cls = (s.chr x).cls := by
  obtain ⟨actor, _, hchr, _⟩ := child_after_core h
  rw [hchr x]
  have := apply_skill_chr_cls s.clean_queue actor m x
  rw [this, clean_queue_chr]

theorem child_after_hp_le {s : BattleQueue} {m : Move} {ch : BattleQueue}
    (h : child_after s m = some ch) (x : Side) : (ch.chr x).hp ≤ (s.chr x).hp := by
  obtain ⟨actor, _, hchr, _⟩ := child_after_core h
  rw [hchr x]
  calc ((apply_skill s.clean_queue actor m).chr x).hp
      ≤ (s.clean_queue.chr x).hp := apply_skill_hp_le _ actor m x
    _ = (s.chr x).hp := by rw [clean_queue_chr]

theorem child_after_p1 {s : BattleQueue} {m : Move} {ch : BattleQueue} {p : Side}
    (h : child_after s m = some ch) (hp : s.p1 = some p) : ch.p1 = some p := by
  obtain ⟨actor, _, _, hp1⟩ := child_after_core h
  rw [hp1]
  exact apply_skill_p1_some actor m (by rw [clean_queue_p1]; exact hp)

theorem sp_cost_pos (cls : CClass) (m : Move) : 1 ≤ sp_cost cls m := by
  cases cls <;> cases m <;> decide

theorem child_after_spSum_lt {s : BattleQueue} {m : Move} {ch : BattleQueue} {actor : Side}
    (hpeek : s.peek = some actor)
    (hv : is_valid_action (s.chr actor) m = true)
    (h : child_after s m = some ch) : spSum ch < spSum s := by
  obtain ⟨actor', hpk', hchr, _⟩ := child_after_core h
  rw [hpeek] at hpk'
  cases hpk'
  have hcost : sp_cost ((s.chr actor).cls) m ≤ (s.chr actor).sp := by
    simpa [is_valid_action] using hv
  have hpos := sp_cost_pos ((s.chr actor).cls) m
  have hactor : (ch.chr actor).sp = (s.chr actor).sp - sp_cost ((s.chr actor).cls) m := by
    rw [hchr actor, apply_skill_sp_actor, clean_queue_chr]
  have hother : (ch.chr actor.other).sp = (s.chr actor.other).sp := by
    rw [hchr actor.other, apply_skill_sp_other, clean_queue_chr]
  have hs : spSum s = (s.chr actor).sp + (s.chr actor.other).sp := by
    cases actor <;> simp [spSum, BattleQueue.chr, Side.other] <;> omega
  have hch : spSum ch = (ch.chr actor).sp + (ch.chr actor.other).sp := by
    cases actor <;> simp [spSum, BattleQueue.chr, Side.other] <;> omega
  omega

theorem is_over_eq_false {s : BattleQueue} (h : s.is_over = some false) :
    (∃ p, s.p1 = some p) ∧
    ∃ x t, s.clean_queue.content = x :: t ∧ s.peek = some x ∧
      has_available_action (s.chr x) = true := by
  unfold BattleQueue.is_over at h
  split at h
  · cases h
  · rename_i hne
    have hcne : s.clean_queue.content ≠ [] := by
      simpa [BattleQueue.is_empty] using hne
    constructor
    · split at h
      · cases h
      · rename_i p hp
        exact ⟨p, hp⟩
    · match hc : s.clean_queue.content with
      | [] => exact absurd hc hcne
      | x :: t =>
        refine ⟨x, t, rfl, ?_, ?_⟩
        · unfold BattleQueue.peek
          rw [hc]
        · have hd : s.content.dropWhile (fun sd => !has_available_action (s.chr sd)) = x :: t := hc
          have := dropWhile_head_false _ s.content x t hd
          simpa using this

theorem terminal_score_none_of_p1_none {s : BattleQueue} (hp : s.p1 = none)
    (hov : s.is_over = some true) : terminal_score s = none := by
  unfold terminal_score BattleQueue.get_winner
  rw [hov, hp]
  rfl

theorem get_state_scoreF_none_of_p1_none {s : BattleQueue} (hp : s.p1 = none) :
    ∀ n, get_state_scoreF n s = none := by
  intro n
  match n with
  | 0 => rfl
  | n + 1 =>
    simp only [get_state_scoreF]
    by_cases hemp : s.is_empty = true
    · have hov : s.is_over = some true := by
        unfold BattleQueue.is_over
        rw [if_pos hemp]
      rw [hov, terminal_score_none_of_p1_none hp hov]
    · have hov : s.is_over = none := by
        unfold BattleQueue.is_over
        rw [if_neg hemp, hp]
      rw [hov]

theorem score_branch_eq_some {f : BattleQueue → Option Int} {s : BattleQueue}
    {actor : Side} {m : Move} {sent c : Int}
    (h : score_branch f s actor m sent = some c) :
    (is_valid_action (s.chr actor) m = false ∧ c = sent) ∨
    (is_valid_action (s.chr actor) m = true ∧ ∃ ch w, child_after s m = some ch ∧
      f ch = some w ∧ c = if ch.peek = some actor then w else -w) := by
  unfold score_branch at h
  split at h
  · rename_i hv
    right
    refine ⟨hv, ?_⟩
    split at h
    · cases h
    · rename_i ch hch
      obtain ⟨w, hw, hc⟩ := Option.map_eq_some'.mp h
      exact ⟨ch, w, hch, hw, hc.symm⟩
  · rename_i hv
    left
    cases h
    exact ⟨Bool.not_eq_true _ ▸ (by simpa using hv), rfl⟩

theorem chr_hp_le_100 {s : BattleQueue} (hA : s.chrA.hp ≤ 100) (hB : s.chrB.hp ≤ 100)
    (x : Side) : (s.chr x).hp ≤ 100 := by
  cases x
  · exact hA
  · exact hB

theorem terminal_score_bound {s : BattleQueue} {v : Int}
    (hA : s.chrA.hp ≤ 100) (hB : s.chrB.hp ≤ 100)
    (h : terminal_score s = some v) : -100 ≤ v ∧ v ≤ 100 := by
  unfold terminal_score at h
  split at h
  · cases h
  · cases h
    constructor <;> omega
  · rename_i w _
    cases h
    have hw : (s.chr w).hp ≤ 100 := chr_hp_le_100 hA hB w
    split <;> omega

theorem get_state_scoreF_bound : ∀ (n : Nat) (s : BattleQueue) (v : Int),
    s.chrA.hp ≤ 100 → s.chrB.hp ≤ 100 →
    get_state_scoreF n s = some v → -100 ≤ v ∧ v ≤ 100 := by
  intro n
  induction n with
  | zero => intro s v _ _ h; cases h
  | succ n ih =>
    intro s v hA hB h
    simp only [get_state_scoreF] at h
    split at h
    · cases h
    · exact terminal_score_bound hA hB h
    · rename_i hov
      split at h
      · cases h
      · split at h
        · cases h
        · rename_i hp1x actor hpeekx
          split at h
          · cases h
          · rename_i c1 hbS
            split at h
            · cases h
            · rename_i c2 hbA
              cases h
              obtain ⟨_, x, t, hcc, hpeek, hact⟩ := is_over_eq_false hov
              rw [hpeekx] at hpeek
              cases hpeek
              have hchild : ∀ {m : Move} {ch : BattleQueue} {w cv : Int},
                  child_after s m = some ch → get_state_scoreF n ch = some w →
                  cv = (if ch.peek = some actor then w else -w) → -100 ≤ cv ∧ cv ≤ 100 := by
                intro m ch w cv hch hw hcv
                have hAc : ch.chrA.hp ≤ 100 :=
                  le_trans (child_after_hp_le hch Side.A) hA
                have hBc : ch.chrB.hp ≤ 100 :=
                  le_trans (child_after_hp_le hch Side.B) hB
                have := ih ch w hAc hBc hw
                subst hcv
                split <;> omega
              rcases score_branch_eq_some hbS with ⟨hvS, rfl⟩ | ⟨hvS, chS, wS, hchS, hwS, hc1⟩ <;>
                rcases score_branch_eq_some hbA with ⟨hvA, rfl⟩ | ⟨hvA, chA, wA, hchA, hwA, hc2⟩
              · simp [has_available_action, hvA, hvS] at hact
              · have := hchild hchA hwA hc2
                constructor <;> simp [max_def] <;> split <;> omega
              · have := hchild hchS hwS hc1
                constructor <;> simp [max_def] <;> split <;> omega
              · have h1 := hchild hchS hwS hc1
                have h2 := hchild hchA hwA hc2
                constructor <;> simp [max_def] <;> split <;> omega

theorem flip_agree {s ch : BattleQueue} {actor : Side}
    (hcls : s.chrA.cls ≠ s.chrB.cls)
    (hpres : ∀ x, (ch.chr x).cls = (s.chr x).cls) (v : Int) :
    (if (ch.peek).map (fun sd => (ch.chr sd).cls) = some ((s.chr actor).cls)
     then v else -v) =
    if ch.peek = some actor then v else -v := by
  cases hpk : ch.peek with
  | none => simp
  | some y =>
    simp only [Option.map_some', Option.some.injEq]
    by_cases hy : y = actor
    · subst hy
      simp [hpres y]
    · have hne : (ch.chr y).cls ≠ (s.chr actor).cls := by
        rw [hpres y]
        cases y <;> cases actor <;>
          first
          | exact absurd rfl hy
          | exact hcls
          | exact Ne.symm hcls
      simp [hne, hy]

theorem mapM_loop_one {α β : Type} (f : α → Option β) (a : α) :
    List.mapM.loop f [a] [] = (f a).map (fun b => [b]) := by
  cases hfa : f a <;> simp [List.mapM.loop, hfa]

theorem mapM_loop_two {α β : Type} (f : α → Option β) (a b : α) :
    List.mapM.loop f [a, b] [] =
      (f a).bind (fun u => (f b).map (fun w => [u, w])) := by
  cases hfa : f a <;> cases hfb : f b <;> simp [List.mapM.loop, hfa, hfb]

theorem scoreF_agree : ∀ (n : Nat) (s : BattleQueue),
    spSum s < n → s.chrA.cls ≠ s.chrB.cls → s.chrA.hp ≤ 100 → s.chrB.hp ≤ 100 →
    get_state_scoreF n s = iterative_get_scoreF n s := by
  intro n
  induction n with
  | zero => intro s hlt _ _ _; exact absurd hlt (Nat.not_lt_zero _)
  | succ n ih =>
    intro s hlt hcls hA hB
    have hle : spSum s ≤ n := Nat.lt_succ_iff.mp hlt
    simp only [get_state_scoreF, iterative_get_scoreF]
    cases hov : s.is_over with
    | none => simp
    | some b =>
      cases b with
      | true => simp
      | false =>
        obtain ⟨⟨p, hp1⟩, x, t, hcc, hpeek, hact⟩ := is_over_eq_false hov
        simp only [hp1, hpeek]
        have htrans : ∀ {m : Move} {ch : BattleQueue}, child_after s m = some ch →
            is_valid_action (s.chr x) m = true →
            get_state_scoreF n ch = iterative_get_scoreF n ch ∧
            iter_child_score (iterative_get_scoreF n) s x ch =
              (get_state_scoreF n ch).map (fun v => if ch.peek = some x then v else -v) ∧
            (∀ v : Int, get_state_scoreF n ch = some v → -100 ≤ v ∧ v ≤ 100) := by
          intro m ch hch hv
          have hAc : ch.chrA.hp ≤ 100 := le_trans (child_after_hp_le hch Side.A) hA
          have hBc : ch.chrB.hp ≤ 100 := le_trans (child_after_hp_le hch Side.B) hB
          have hclsc : ch.chrA.cls ≠ ch.chrB.cls := by
            show (ch.chr Side.A).cls ≠ (ch.chr Side.B).cls
            rw [child_after_cls hch Side.A, child_after_cls hch Side.B]
            exact hcls
          have hlt2 : spSum ch < n :=
            lt_of_lt_of_le (child_after_spSum_lt hpeek hv hch) hle
          have hih := ih ch hlt2 hclsc hAc hBc
          refine ⟨hih, ?_, fun v hv2 => get_state_scoreF_bound n ch v hAc hBc hv2⟩
          unfold iter_child_score
          rw [← hih]
          exact Option.map_congr (fun a _ => flip_agree hcls (child_after_cls hch) a)
        cases hvA : is_valid_action (s.chr x) .attack with
        | false =>
          cases hvS : is_valid_action (s.chr x) .special with
          | false => simp [has_available_action, hvA, hvS] at hact
          | true =>
            cases hCS : child_after s .special with
            | none => simp [score_branch, helper_children, hvA, hvS, hCS]
            | some chS =>
              obtain ⟨hihS, hicS, hboundS⟩ := htrans hCS hvS
              have hSb : score_branch (get_state_scoreF n) s x .special (-42423232424) =
                  (get_state_scoreF n chS).map (fun v => if chS.peek = some x then v else -v) := by
                simp [score_branch, hvS, hCS]
              have hAb : score_branch (get_state_scoreF n) s x .attack (-64545353434) =
                  some (-64545353434) := by
                simp [score_branch, hvA]
              have hHc : helper_children s x = some [chS] := by
                simp [helper_children, hvA, hvS, hCS]
              rw [hSb, hAb, hHc]
              cases hrS : get_state_scoreF n chS with
              | none => simp [mapM_loop_one, hicS, hrS]
              | some vS =>
                obtain ⟨hb1, hb2⟩ := hboundS vS hrS
                have hge : (-64545353434 : Int) ≤ if chS.peek = some x then vS else -vS := by
                  split <;> omega
                simp [mapM_loop_one, hicS, hrS, max_eq_right hge]
        | true =>
          cases hCA : child_after s .attack with
          | none =>
            have hHc : helper_children s x = none := by
              simp [helper_children, hvA, hCA]
            rw [hHc]
            cases hvS : is_valid_action (s.chr x) .special with
            | false =>
              have hSb : score_branch (get_state_scoreF n) s x .special (-42423232424) =
                  some (-42423232424) := by
                simp [score_branch, hvS]
              have hAb : score_branch (get_state_scoreF n) s x .attack (-64545353434) =
                  none := by
                simp [score_branch, hvA, hCA]
              rw [hSb, hAb]
            | true =>
              cases hCS : child_after s .special with
              | none =>
                have hSb : score_branch (get_state_scoreF n) s x .special (-42423232424) =
                    none := by
                  simp [score_branch, hvS, hCS]
                rw [hSb]
              | some chS =>
                have hSb : score_branch (get_state_scoreF n) s x .special (-42423232424) =
                    (get_state_scoreF n chS).map
                      (fun v => if chS.peek = some x then v else -v) := by
                  simp [score_branch, hvS, hCS]
                have hAb : score_branch (get_state_scoreF n) s x .attack (-64545353434) =
                    none := by
                  simp [score_branch, hvA, hCA]
                rw [hSb, hAb]
                cases hrS : get_state_scoreF n chS with
                | none => simp [hrS]
                | some vS => simp [hrS]
          | some chA =>
            obtain ⟨hihA, hicA, hboundA⟩ := htrans hCA hvA
            have hAb : score_branch (get_state_scoreF n) s x .attack (-64545353434) =
                (get_state_scoreF n chA).map (fun v => if chA.peek = some x then v else -v) := by
              simp [score_branch, hvA, hCA]
            cases hvS : is_valid_action (s.chr x) .special with
            | false =>
              have hSb : score_branch (get_state_scoreF n) s x .special (-42423232424) =
                  some (-42423232424) := by
                simp [score_branch, hvS]
              have hHc : helper_children s x = some [chA] := by
                simp [helper_children, hvA, hvS, hCA]
              rw [hSb, hAb, hHc]
              cases hrA : get_state_scoreF n chA with
              | none => simp [mapM_loop_one, hicA, hrA]
              | some vA =>
                obtain ⟨hb1, hb2⟩ := hboundA vA hrA
                have hge : (-42423232424 : Int) ≤ if chA.peek = some x then vA else -vA := by
                  split <;> omega
                simp [mapM_loop_one, hicA, hrA, max_eq_left hge]
            | true =>
              cases hCS : child_after s .special with
              | none =>
                have hSb : score_branch (get_state_scoreF n) s x .special (-42423232424) =
                    none := by
                  simp [score_branch, hvS, hCS]
                have hHc : helper_children s x = none := by
                  simp [helper_children, hvA, hvS, hCA, hCS]
                rw [hSb, hHc]
              | some chS =>
                obtain ⟨hihS, hicS, hboundS⟩ := htrans hCS hvS
                have hSb : score_branch (get_state_scoreF n) s x .special (-42423232424) =
                    (get_state_scoreF n chS).map
                      (fun v => if chS.peek = some x then v else -v) := by
                  simp [score_branch, hvS, hCS]
                have hHc : helper_children s x = some [chA, chS] := by
                  simp [helper_children, hvA, hvS, hCA, hCS]
                rw [hSb, hHc]
                cases hrS : get_state_scoreF n chS with
                | none =>
                  cases hrA : get_state_scoreF n chA with
                  | none => simp [mapM_loop_two, hicA, hicS, hrA, hrS]
                  | some vA => simp [mapM_loop_two, hAb, hicA, hicS, hrA, hrS]
                | some vS =>
                  cases hrA : get_state_scoreF n chA with
                  | none => simp [mapM_loop_two, hAb, hicA, hicS, hrA, hrS]
                  | some vA => simp [mapM_loop_two, hAb, hicA, hicS, hrA, hrS]

theorem score_agree_top (s : BattleQueue) (hcls : s.chrA.cls ≠ s.chrB.cls)
    (hA : s.chrA.hp ≤ 100) (hB : s.chrB.hp ≤ 100) :
    get_state_score s = iterative_get_score s := by
  unfold get_state_score iterative_get_score
  cases hp : s.p1 with
  | none => rw [get_state_scoreF_none_of_p1_none hp]
  | some p => exact scoreF_agree (spSum s + 1) s (Nat.lt_succ_self _) hcls hA hB

theorem select_score_agree (s : BattleQueue) (hcls : s.chrA.cls ≠ s.chrB.cls)
    (hA : s.chrA.hp ≤ 100) (hB : s.chrB.hp ≤ 100) (m : Move) (sent : Int)
    (actor : Side) :
    score_branch get_state_score s actor m sent =
      score_branch iterative_get_score s actor m sent := by
  unfold score_branch
  split
  · split
    · rfl
    · rename_i ch hch
      have hclsc : ch.chrA.cls ≠ ch.chrB.cls := by
        show (ch.chr Side.A).cls ≠ (ch.chr Side.B).cls
        rw [child_after_cls hch Side.A, child_after_cls hch Side.B]
        exact hcls
      rw [score_agree_top ch hclsc (le_trans (child_after_hp_le hch Side.A) hA)
        (le_trans (child_after_hp_le hch Side.B) hB)]
  · rfl

/-- C1 (amended): on every state whose two distinguished participants have
DIFFERENT character classes (and in-range hp, at most the initial 100 — hp
never increases for these classes), the recursive and the iterative engine
return the same score and the same chosen move label.  On same-class matchups
they can disagree (see the counterexample): the recursive engine's sign flip
compares head identities while the iterative fold compares head types. -/
theorem c1_engines_agree_distinct_classes (s : BattleQueue)
    (hcls : s.chrA.cls ≠ s.chrB.cls) (hA : s.chrA.hp ≤ 100) (hB : s.chrB.hp ≤ 100) :
    get_state_score s = iterative_get_score s ∧
    RecursiveMinimax.select_attack s = IterativeMinimax.select_attack s := by
  refine ⟨score_agree_top s hcls hA hB, ?_⟩
  unfold RecursiveMinimax.select_attack IterativeMinimax.select_attack select_attack_with
  have hAeq : select_scoreA get_state_score s = select_scoreA iterative_get_score s := by
    unfold select_scoreA
    split
    · rfl
    · exact select_score_agree s hcls hA hB .attack (-5445543) _
  have hSeq : select_scoreS get_state_score s = select_scoreS iterative_get_score s := by
    unfold select_scoreS
    split
    · rfl
    · exact select_score_agree s hcls hA hB .special (-6476444) _
  rw [hAeq, hSeq]

/-- Witness for the amended C1 at a concrete Rogue-vs-Mage state. -/
theorem c1_witness :
    ((⟨[Side.A, Side.B], some Side.A, ⟨CClass.rogue, 60, 25⟩,
        ⟨CClass.mage, 50, 40⟩⟩ : BattleQueue).chrA.cls ≠
      (⟨[Side.A, Side.B], some Side.A, ⟨CClass.rogue, 60, 25⟩,
        ⟨CClass.mage, 50, 40⟩⟩ : BattleQueue).chrB.cls ∧
      (⟨[Side.A, Side.B], some Side.A, ⟨CClass.rogue, 60, 25⟩,
        ⟨CClass.mage, 50, 40⟩⟩ : BattleQueue).chrA.hp ≤ 100) ∧
    (get_state_score ⟨[Side.A, Side.B], some Side.A, ⟨CClass.rogue, 60, 25⟩,
        ⟨CClass.mage, 50, 40⟩⟩ =
      iterative_get_score ⟨[Side.A, Side.B], some Side.A, ⟨CClass.rogue, 60, 25⟩,
        ⟨CClass.mage, 50, 40⟩⟩ ∧
      RecursiveMinimax.select_attack ⟨[Side.A, Side.B], some Side.A,
        ⟨CClass.rogue, 60, 25⟩, ⟨CClass.mage, 50, 40⟩⟩ =
      IterativeMinimax.select_attack ⟨[Side.A, Side.B], some Side.A,
        ⟨CClass.rogue, 60, 25⟩, ⟨CClass.mage, 50, 40⟩⟩) :=
  ⟨⟨by decide, by decide⟩,
    c1_engines_agree_distinct_classes _ (by decide) (by decide) (by decide)⟩

/-! ## Claim C4: ledger / sequence alignment -/

theorem length_dropWhile_le {α : Type} (p : α → Bool) (l : List α) :
    (l.dropWhile p).length ≤ l.length :=
  (List.dropWhile_suffix p).sublist.length_le

theorem appendEntry_lengths (s : RestrictedBattleQueue) (c : Side) (f : Bool) :
    (s.appendEntry c f).content.length = s.content.length + 1 ∧
    (s.appendEntry c f).can_add.length = s.can_add.length + 1 := by
  simp [RestrictedBattleQueue.appendEntry]

theorem remove_realigns {s s' : RestrictedBattleQueue}
    (hle : s.content.length ≤ s.can_add.length) (h : s.remove = some s') :
    s'.content.length = s'.can_add.length := by
  unfold RestrictedBattleQueue.remove at h
  dsimp only at h
  split at h
  · cases h
  · rename_i x t hcc
    cases h
    have hdw : (s.clean_queue).content.length ≤ s.content.length := by
      simpa [RestrictedBattleQueue.clean_queue] using
        length_dropWhile_le (fun sd => !has_available_action (s.chr sd)) s.content
    rw [hcc] at hdw
    simp only [List.length_drop, List.length_cons] at *
    rw [hcc]
    simp only [List.length_cons]
    omega

theorem RStep_len_le {op : ROp} {s s' : RestrictedBattleQueue}
    (h : RStep op s = some s')
    (hle : s.content.length ≤ s.can_add.length) :
    s'.content.length ≤ s'.can_add.length := by
  cases op with
  | add c =>
    simp only [RStep, RestrictedBattleQueue.add] at h
    rw [if_pos hle] at h
    split at h
    · cases h
      simp only [RestrictedBattleQueue.appendEntry, List.length_append, List.length_cons,
        List.length_nil]
      omega
    · split at h
      · cases h
      · cases h
        simpa using hle
      · split at h
        · cases h
          simp [RestrictedBattleQueue.appendEntry]
          omega
        · split at h
          · cases h
            simp [RestrictedBattleQueue.appendEntry]
            omega
          · cases h
            simp [RestrictedBattleQueue.appendEntry]
            omega
  | remove =>
    exact le_of_eq (remove_realigns hle h)
  | peek =>
    simp only [RStep, Option.some.injEq] at h
    cases h
    refine le_trans ?_ hle
    simpa [RestrictedBattleQueue.clean_queue] using
      length_dropWhile_le (fun sd => !has_available_action (s.chr sd)) s.content
  | is_empty =>
    simp only [RStep, Option.some.injEq] at h
    cases h
    refine le_trans ?_ hle
    simpa [RestrictedBattleQueue.clean_queue] using
      length_dropWhile_le (fun sd => !has_available_action (s.chr sd)) s.content
  | is_over =>
    simp only [RStep] at h
    have hcl : (s.clean_queue).content.length ≤ s.can_add.length := by
      refine le_trans ?_ hle
      simpa [RestrictedBattleQueue.clean_queue] using
        length_dropWhile_le (fun sd => !has_available_action (s.chr sd)) s.content
    split at h
    · cases h
      exact hcl
    · split at h
      · cases h
      · cases h
        exact hcl
  | copy =>
    simp only [RStep] at h
    split at h
    · cases h
    · cases h
      exact hle

theorem RExec_len_le : ∀ (ops : List ROp) (s0 s : RestrictedBattleQueue),
    s0.content.length ≤ s0.can_add.length → RExec ops s0 = some s →
    s.content.length ≤ s.can_add.length := by
  intro ops
  induction ops with
  | nil =>
    intro s0 s h0 h
    simp only [RExec, Option.some.injEq] at h
    cases h
    exact h0
  | cons op ops ih =>
    intro s0 s h0 h
    simp only [RExec] at h
    split at h
    · cases h
    · rename_i s1 hs1
      exact ih s1 s (RStep_len_le hs1 h0) h

/-- C4 (amended): on every `RestrictedBattleQueue` reachable by the public
operations, the eligibility ledger is at least as long as the turn sequence
(the inherited `_clean_queue` called by `peek`/`is_empty`/`is_over` prunes the
sequence but leaves stale flags at the front of the ledger, so exact equality
can be lost), and every successful `remove` restores exact alignment: it drops
from the ledger precisely the stale leading entries plus the one removed.  The
flag describing `content[i]` is the ledger entry `i + (|ledger| - |sequence|)`,
i.e. the ledger's trailing `|sequence|` entries describe the sequence. -/
theorem c4_ledger_at_least_sequence_and_remove_realigns :
    (∀ (a b : Chr) (ops : List ROp) (s : RestrictedBattleQueue),
        RExec ops (initRBQ a b) = some s →
        s.content.length ≤ s.can_add.length) ∧
    (∀ (s s' : RestrictedBattleQueue),
        s.content.length ≤ s.can_add.length → s.remove = some s' →
        s'.content.length = s'.can_add.length) := by
  constructor
  · intro a b ops s h
    exact RExec_len_le ops (initRBQ a b) s (by simp [initRBQ]) h
  · intro s s' hle h
    exact remove_realigns hle h

/-- Witness for the amended C4: a concrete history with a stale ledger entry,
and a concrete remove that realigns. -/
theorem c4_witness :
    (RExec [ROp.add Side.A, ROp.is_empty, ROp.add Side.B]
        (initRBQ ⟨CClass.rogue, 100, 0⟩ ⟨CClass.rogue, 100, 100⟩) =
      some ⟨[Side.B], [true, true], some Side.A, ⟨CClass.rogue, 100, 0⟩,
        ⟨CClass.rogue, 100, 100⟩⟩ ∧
      (⟨[Side.B], [true, true], some Side.A, ⟨CClass.rogue, 100, 0⟩,
        ⟨CClass.rogue, 100, 100⟩⟩ : RestrictedBattleQueue).remove =
        some ⟨[], [], some Side.A, ⟨CClass.rogue, 100, 0⟩, ⟨CClass.rogue, 100, 100⟩⟩) ∧
    ((⟨[Side.B], [true, true], some Side.A, ⟨CClass.rogue, 100, 0⟩,
        ⟨CClass.rogue, 100, 100⟩⟩ : RestrictedBattleQueue).content.length ≤
      (⟨[Side.B], [true, true], some Side.A, ⟨CClass.rogue, 100, 0⟩,
        ⟨CClass.rogue, 100, 100⟩⟩ : RestrictedBattleQueue).can_add.length ∧
      (⟨[], [], some Side.A, ⟨CClass.rogue, 100, 0⟩,
        ⟨CClass.rogue, 100, 100⟩⟩ : RestrictedBattleQueue).content.length =
      (⟨[], [], some Side.A, ⟨CClass.rogue, 100, 0⟩,
        ⟨CClass.rogue, 100, 100⟩⟩ : RestrictedBattleQueue).can_add.length) :=
  ⟨⟨by decide, by decide⟩,
    ⟨c4_ledger_at_least_sequence_and_remove_realigns.1 ⟨CClass.rogue, 100, 0⟩
        ⟨CClass.rogue, 100, 100⟩ [ROp.add Side.A, ROp.is_empty, ROp.add Side.B] _ (by decide),
      c4_ledger_at_least_sequence_and_remove_realigns.2
        ⟨[Side.B], [true, true], some Side.A, ⟨CClass.rogue, 100, 0⟩,
          ⟨CClass.rogue, 100, 100⟩⟩
        ⟨[], [], some Side.A, ⟨CClass.rogue, 100, 0⟩, ⟨CClass.rogue, 100, 100⟩⟩
        (by decide) (by decide)⟩⟩

/-! ## Claim C7: at most two eligible occurrences -/

/-- Execution of public operations in which every intermediate state keeps the
ledger exactly aligned with the sequence (the regime the claim presumes; see
the C4 counterexample for how `peek`/`is_empty`/`is_over` can break it). -/
def RExecAligned : List ROp → RestrictedBattleQueue → Option RestrictedBattleQueue
  | [], s => if s.can_add.length = s.content.length then some s else none
  | op :: ops, s =>
    if s.can_add.length = s.content.length then
      match RStep op s with
      | none => none
      | some s1 => RExecAligned ops s1
    else none

theorem RExecAligned_exec : ∀ (ops : List ROp) (s0 s : RestrictedBattleQueue),
    RExecAligned ops s0 = some s → RExec ops s0 = some s := by
  intro ops
  induction ops with
  | nil =>
    intro s0 s h
    simp only [RExecAligned] at h
    split at h
    · exact h
    · cases h
  | cons op ops ih =>
    intro s0 s h
    simp only [RExecAligned] at h
    split at h
    · simp only [RExec]
      split
      · rename_i hnone
        rw [hnone] at h
        cases h
      · rename_i s1 hs1
        rw [hs1] at h
        exact ih s1 s h
    · cases h

theorem RExecAligned_head {ops : List ROp} {s s' : RestrictedBattleQueue}
    (h : RExecAligned ops s = some s') : s.can_add.length = s.content.length := by
  cases ops with
  | nil =>
    simp only [RExecAligned] at h
    split at h
    · assumption
    · cases h
  | cons op ops =>
    simp only [RExecAligned] at h
    split at h
    · assumption
    · cases h

theorem eligible_count_aligned {s : RestrictedBattleQueue} (c : Side)
    (ha : s.can_add.length = s.content.length) :
    eligible_count s c = (s.content.zip s.can_add).countP (fun q => q.1 == c && q.2) := by
  unfold eligible_count
  rw [ha, Nat.sub_self, List.drop_zero]

theorem eligible_count_zero_of_not_mem {s : RestrictedBattleQueue} {c : Side}
    (hc : c ∉ s.content) : eligible_count s c = 0 := by
  unfold eligible_count
  refine List.countP_eq_zero.mpr ?_
  intro q hq
  have hm := (List.of_mem_zip hq).1
  have : q.1 ≠ c := fun hqc => hc (hqc ▸ hm)
  simp [this]

theorem eligible_count_appendEntry {s : RestrictedBattleQueue}
    (ha : s.can_add.length = s.content.length) (c : Side) (f : Bool) (d : Side) :
    eligible_count (s.appendEntry c f) d =
      eligible_count s d + (if c = d ∧ f then 1 else 0) := by
  have h1 : (s.appendEntry c f).content = s.content ++ [c] := rfl
  have h2 : (s.appendEntry c f).can_add = s.can_add ++ [f] := rfl
  have e1 : (s.can_add ++ [f]).length - (s.content ++ [c]).length = 0 := by
    simp [ha]
  have e2 : s.can_add.length - s.content.length = 0 := by
    omega
  unfold eligible_count
  rw [h1, h2, e1, e2, List.drop_zero, List.drop_zero, List.zip_append ha.symm,
    List.countP_append]
  simp only [List.zip_cons_cons, List.zip_nil_right, List.countP_cons, List.countP_nil,
    Nat.zero_add]
  by_cases hc : c = d
  · subst hc
    cases f <;> simp
  · have hbeq : (c == d) = false := by
      simp [hc]
    simp [hbeq, hc]

theorem zip_drop {α β : Type} : ∀ (n : Nat) (l1 : List α) (l2 : List β),
    (l1.drop n).zip (l2.drop n) = (l1.zip l2).drop n := by
  intro n
  induction n with
  | zero => intro l1 l2; simp
  | succ n ih =>
    intro l1 l2
    cases l1 with
    | nil => simp
    | cons a l1 =>
      cases l2 with
      | nil => simp
      | cons b l2 =>
        simp only [List.drop_succ_cons, List.zip_cons_cons]
        exact ih l1 l2

theorem remove_eq {s s' : RestrictedBattleQueue} (h : s.remove = some s') :
    ∃ x t, s.content.dropWhile (fun sd => !has_available_action (s.chr sd)) = x :: t ∧
      s' = ⟨t, s.can_add.drop (1 + (s.can_add.length - (t.length + 1))),
        s.p1, s.chrA, s.chrB⟩ := by
  unfold RestrictedBattleQueue.remove at h
  dsimp only at h
  split at h
  · cases h
  · rename_i x t hcc
    cases h
    refine ⟨x, t, hcc, ?_⟩
    have hl : s.clean_queue.content.length = t.length + 1 := by
      have hc : s.clean_queue.content = x :: t := hcc
      rw [hc]
      rfl
    rw [hl]
    rfl

theorem remove_count_le {s s' : RestrictedBattleQueue}
    (ha : s.can_add.length = s.content.length)
    (h : s.remove = some s') (d : Side) :
    eligible_count s' d ≤ eligible_count s d := by
  obtain ⟨x, t, hdw, rfl⟩ := remove_eq h
  have hsplit := List.takeWhile_append_dropWhile
    (fun sd => !has_available_action (s.chr sd)) s.content
  obtain ⟨K, hK⟩ : ∃ K,
      (s.content.takeWhile (fun sd => !has_available_action (s.chr sd))).length = K :=
    ⟨_, rfl⟩
  have hlen : s.content.length = K + (t.length + 1) := by
    have hl := congrArg List.length hsplit
    rw [List.length_append, hdw] at hl
    simp only [List.length_cons] at hl
    omega
  have hstart : 1 + (s.can_add.length - (t.length + 1)) = K + 1 := by
    omega
  have h1 : s.content.drop K = x :: t := by
    conv_lhs => rw [← hsplit]
    rw [List.drop_left' hK, hdw]
  have ht : t = s.content.drop (K + 1) := by
    have h2 : (s.content.drop K).drop 1 = s.content.drop (K + 1) := by
      rw [List.drop_drop]
    rw [← h2, h1]
    rfl
  rw [eligible_count_aligned d ha]
  unfold eligible_count
  dsimp only
  rw [hstart]
  have hlen2 : (s.can_add.drop (K + 1)).length - t.length = 0 := by
    simp only [List.length_drop]
    omega
  rw [hlen2, List.drop_zero]
  have hsub : (t.zip (s.can_add.drop (K + 1))).Sublist (s.content.zip s.can_add) := by
    conv_lhs => rw [ht]
    rw [zip_drop]
    exact List.drop_sublist _ _
  exact hsub.countP_le _

theorem cleanR_eq_self_of_aligned {s : RestrictedBattleQueue}
    (ha : s.can_add.length = s.content.length)
    (ha2 : (s.clean_queue).can_add.length = (s.clean_queue).content.length) :
    s.clean_queue = s := by
  have hsub : (s.content.dropWhile
      (fun sd => !has_available_action (s.chr sd))).Sublist s.content :=
    (List.dropWhile_suffix _).sublist
  have ha3 : s.can_add.length =
      (s.content.dropWhile (fun sd => !has_available_action (s.chr sd))).length := ha2
  have hlen : (s.content.dropWhile
      (fun sd => !has_available_action (s.chr sd))).length = s.content.length := by
    omega
  have heq := hsub.eq_of_length hlen
  show ({ s with
    content := (s.content.dropWhile (fun sd => !has_available_action (s.chr sd))) } :
      RestrictedBattleQueue) = s
  rw [heq]

theorem add_count_le {s s' : RestrictedBattleQueue} {c : Side}
    (ha : s.can_add.length = s.content.length)
    (h : s.add c = some s')
    (hcount : ∀ d, eligible_count s d ≤ 2) (d : Side) :
    eligible_count s' d ≤ 2 := by
  have hle : s.content.length ≤ s.can_add.length := le_of_eq ha.symm
  unfold RestrictedBattleQueue.add at h
  rw [if_pos hle] at h
  dsimp only at h
  split at h
  · cases h
    rename_i hemp
    rw [eligible_count_appendEntry ha c true d]
    have h0 : eligible_count s d = 0 := by
      apply eligible_count_zero_of_not_mem
      simp [hemp]
    rw [h0]
    split <;> omega
  · split at h
    · cases h
    · cases h
      exact hcount d
    · split at h
      · cases h
        rename_i hnotmem
        rw [eligible_count_appendEntry ha c true d]
        by_cases hcd : c = d
        · subst hcd
          have h0 : eligible_count s c = 0 := eligible_count_zero_of_not_mem hnotmem
          rw [h0]
          split <;> omega
        · have := hcount d
          split
          · rename_i hcf
            exact absurd hcf.1 hcd
          · omega
      · split at h
        · cases h
          rename_i hcond
          rw [eligible_count_appendEntry ha c true d]
          have hcnt : eligible_count s c ≠ 2 := by
            rw [eligible_count_aligned c ha]
            exact hcond.2
          by_cases hcd : c = d
          · subst hcd
            have := hcount c
            split <;> omega
          · have := hcount d
            split
            · rename_i hcf
              exact absurd hcf.1 hcd
            · omega
        · cases h
          rw [eligible_count_appendEntry ha c false d]
          have := hcount d
          split
          · rename_i hcf
            exact absurd hcf.2 (by simp)
          · omega

theorem RStep_count_le {op : ROp} {s s' : RestrictedBattleQueue}
    (ha : s.can_add.length = s.content.length)
    (ha2 : s'.can_add.length = s'.content.length)
    (h : RStep op s = some s')
    (hcount : ∀ d, eligible_count s d ≤ 2) (d : Side) :
    eligible_count s' d ≤ 2 := by
  cases op with
  | add c => exact add_count_le ha h hcount d
  | remove =>
    exact le_trans (remove_count_le ha h d) (hcount d)
  | peek =>
    simp only [RStep, Option.some.injEq] at h
    subst h
    rw [cleanR_eq_self_of_aligned ha ha2]
    exact hcount d
  | is_empty =>
    simp only [RStep, Option.some.injEq] at h
    subst h
    rw [cleanR_eq_self_of_aligned ha ha2]
    exact hcount d
  | is_over =>
    simp only [RStep] at h
    have hclean : s' = s.clean_queue := by
      split at h
      · cases h
        rfl
      · split at h
        · cases h
        · cases h
          rfl
    subst hclean
    rw [cleanR_eq_self_of_aligned ha ha2]
    exact hcount d
  | copy =>
    simp only [RStep] at h
    split at h
    · cases h
    · cases h
      exact hcount d

theorem RExecAligned_count : ∀ (ops : List ROp) (s0 s : RestrictedBattleQueue),
    (∀ d, eligible_count s0 d ≤ 2) → RExecAligned ops s0 = some s →
    ∀ d, eligible_count s d ≤ 2 := by
  intro ops
  induction ops with
  | nil =>
    intro s0 s hc h
    simp only [RExecAligned] at h
    split at h
    · cases h
      exact hc
    · cases h
  | cons op ops ih =>
    intro s0 s hc h
    simp only [RExecAligned] at h
    split at h
    · rename_i ha
      split at h
      · cases h
      · rename_i s1 hs1
        exact ih s1 s (RStep_count_le ha (RExecAligned_head h) hs1 hc) h
    · cases h

/-- C7 (amended): in every history of the public operations along which the
eligibility ledger stays exactly aligned with the turn sequence (the regime the
claim presumes; pruning by `peek`/`is_empty`/`is_over` can break it and then
the bound fails — see the counterexample), no combatant ever has more than two
occurrences marked eligible; and an `add` of the current head that already has
two eligible occurrences, with the ledger head eligible, appends the new entry
marked ineligible rather than rejecting it. -/
theorem c7_at_most_two_eligible :
    (∀ (a b : Chr) (ops : List ROp) (s : RestrictedBattleQueue),
        RExecAligned ops (initRBQ a b) = some s →
        RExec ops (initRBQ a b) = some s ∧ ∀ c, eligible_count s c ≤ 2) ∧
    (∀ (s : RestrictedBattleQueue) (c : Side),
        s.can_add.length = s.content.length →
        s.content.head? = some c → s.can_add.head? = some true →
        eligible_count s c = 2 →
        s.add c = some (s.appendEntry c false)) := by
  constructor
  · intro a b ops s h
    refine ⟨RExecAligned_exec ops _ s h, ?_⟩
    refine RExecAligned_count ops _ s ?_ h
    intro d
    simp [eligible_count, initRBQ]
  · intro s c ha hhead hflag hcnt
    have hle : s.content.length ≤ s.can_add.length := le_of_eq ha.symm
    have hne : s.content ≠ [] := by
      intro he
      rw [he] at hhead
      cases hhead
    have hmem : c ∈ s.content := List.mem_of_mem_head? (by simp [hhead])
    have hcnt2 : (s.content.zip s.can_add).countP (fun q => q.1 == c && q.2) = 2 := by
      rw [← eligible_count_aligned c ha]
      exact hcnt
    unfold RestrictedBattleQueue.add
    rw [if_pos hle]
    dsimp only
    rw [if_neg hne]
    simp only [hflag]
    rw [if_neg (not_not_intro hmem), if_neg (fun hco => hco.2 hcnt2)]

/-- Witness for the amended C7: an aligned three-add history whose eligible
counts stay at most 2, and a concrete third append marked ineligible. -/
theorem c7_witness :
    (RExecAligned [ROp.add Side.A, ROp.add Side.A, ROp.add Side.A]
        (initRBQ ⟨CClass.rogue, 100, 100⟩ ⟨CClass.rogue, 100, 100⟩) =
      some ⟨[Side.A, Side.A, Side.A], [true, true, false], some Side.A,
        ⟨CClass.rogue, 100, 100⟩, ⟨CClass.rogue, 100, 100⟩⟩ ∧
      eligible_count ⟨[Side.A, Side.A], [true, true], some Side.A,
        ⟨CClass.rogue, 100, 100⟩, ⟨CClass.rogue, 100, 100⟩⟩ Side.A = 2) ∧
    ((RExec [ROp.add Side.A, ROp.add Side.A, ROp.add Side.A]
        (initRBQ ⟨CClass.rogue, 100, 100⟩ ⟨CClass.rogue, 100, 100⟩) =
      some ⟨[Side.A, Side.A, Side.A], [true, true, false], some Side.A,
        ⟨CClass.rogue, 100, 100⟩, ⟨CClass.rogue, 100, 100⟩⟩ ∧
      ∀ c, eligible_count ⟨[Side.A, Side.A, Side.A], [true, true, false], some Side.A,
        ⟨CClass.rogue, 100, 100⟩, ⟨CClass.rogue, 100, 100⟩⟩ c ≤ 2) ∧
      RestrictedBattleQueue.add ⟨[Side.A, Side.A], [true, true], some Side.A,
        ⟨CClass.rogue, 100, 100⟩, ⟨CClass.rogue, 100, 100⟩⟩ Side.A =
      some (RestrictedBattleQueue.appendEntry ⟨[Side.A, Side.A], [true, true], some Side.A,
        ⟨CClass.rogue, 100, 100⟩, ⟨CClass.rogue, 100, 100⟩⟩ Side.A false)) :=
  ⟨⟨by decide, by decide⟩,
    ⟨c7_at_most_two_eligible.1 ⟨CClass.rogue, 100, 100⟩ ⟨CClass.rogue, 100, 100⟩
        [ROp.add Side.A, ROp.add Side.A, ROp.add Side.A] _ (by decide),
      c7_at_most_two_eligible.2 ⟨[Side.A, Side.A], [true, true], some Side.A,
          ⟨CClass.rogue, 100, 100⟩, ⟨CClass.rogue, 100, 100⟩⟩ Side.A
        (by decide) (by decide) (by decide) (by decide)⟩⟩

/-! ## C8: frame lemmas for the heap model -/

/-- A successful `get?` implies the index is in range. -/
theorem get?_lt_length {α : Type} {l : List α} {n : Nat} {a : α}
    (h : l.get? n = some a) : n < l.length := by
  by_contra hn
  rw [List.get?_len_le (Nat.le_of_not_lt hn)] at h
  exact Option.noConfusion h

/-- `_clean_queue` does not touch `_p1`, `_p2` or the store and only drops
content entries, so closedness is preserved. -/
theorem hClean_closed {q : HQueue} {w : World} {r1 r2 : Nat}
    (hc : HClosed q w r1 r2) : HClosed (hClean q w) w r1 r2 := by
  obtain ⟨hp1, hp2, h3, h4, h5, h6, h7, hcont⟩ := hc
  refine ⟨hp1, hp2, h3, h4, h5, h6, h7, ?_⟩
  intro r hr
  exact hcont r ((List.dropWhile_suffix _).sublist.subset hr)

/-- On a closed queue, the reference `peek` reports is one of the two
participants. -/
theorem hPeek_cases {q : HQueue} {w : World} {r1 r2 r : Nat}
    (hc : HClosed q w r1 r2) (h : hPeekVal q w = some r) : r = r1 ∨ r = r2 := by
  obtain ⟨hp1, hp2, h3, h4, h5, h6, h7, hcont⟩ := hc
  unfold hPeekVal at h
  split at h
  · rename_i x t hh
    injection h with h
    subst h
    refine hcont x
      ((List.dropWhile_suffix (fun s => !hHasActionRef w s)).sublist.subset ?_)
    rw [show (q.content.dropWhile (fun s => !hHasActionRef w s)) =
        (hClean q w).content from rfl, hh]
    exact List.mem_cons_self x t
  · rw [hp1] at h
    injection h with h
    exact Or.inl h.symm

/-- `add` on a queue whose `_p1` is already set only appends to the content. -/
theorem hAddRef_of_p1 {q : HQueue} (w : World) (r : Nat) {p : Nat}
    (hp : q.p1 = some p) :
    hAddRef q w r = { q with content := q.content ++ [r] } := by
  unfold hAddRef
  rw [hp]

/-- Appending a participant reference preserves closedness. -/
theorem hAddRef_closed {q : HQueue} {w : World} {r1 r2 r : Nat}
    (hc : HClosed q w r1 r2) (hr : r = r1 ∨ r = r2) :
    HClosed (hAddRef q w r) w r1 r2 := by
  obtain ⟨hp1, hp2, h3, h4, h5, h6, h7, hcont⟩ := hc
  rw [hAddRef_of_p1 w r hp1]
  refine ⟨hp1, hp2, h3, h4, h5, h6, h7, ?_⟩
  intro x hx
  rcases List.mem_append.mp hx with hx | hx
  · exact hcont x hx
  · have hxr : x = r := List.mem_singleton.mp hx
    subst hxr
    exact hr

/-- Closedness reads the store only through its length and the `enemy` links,
so a store change preserving both preserves it. -/
theorem HClosed_store_congr {q : HQueue} {w w2 : World} {r1 r2 : Nat}
    (hc : HClosed q w r1 r2) (hlen : w2.length = w.length)
    (hen : ∀ j, (w2.get? j).map HChr.enemy = (w.get? j).map HChr.enemy) :
    HClosed q w2 r1 r2 := by
  obtain ⟨hp1, hp2, h3, h4, h5, h6, h7, hcont⟩ := hc
  refine ⟨hp1, hp2, ?_, ?_, h5, ?_, ?_, hcont⟩
  · rw [hlen]
    exact h3
  · rw [hlen]
    exact h4
  · rw [hen r1]
    exact h6
  · rw [hen r2]
    exact h7

/-- Writing a cell that keeps its `enemy` field preserves every `enemy` link. -/
theorem set_enemy_congr {w : World} {i : Nat} {a : HChr}
    (ha : (w.get? i).map HChr.enemy = some a.enemy) :
    ∀ j, ((w.set i a).get? j).map HChr.enemy = (w.get? j).map HChr.enemy := by
  intro j
  by_cases hj : i = j
  · subst hj
    have hi : i < w.length := by
      cases hg : w.get? i with
      | none =>
        rw [hg] at ha
        exact absurd ha (by simp)
      | some b => exact get?_lt_length hg
    rw [List.get?_set_eq_of_lt a hi]
    exact ha.symm
  · rw [List.get?_set_ne a w hj]

/-- `_deal_damage` writes only the caster's sp and the enemy's hp: the store
length and every `enemy` link are preserved, and every cell other than the
caster's and its enemy's is untouched. -/
theorem hDealDamage_frame {w : World} {r : Nat} {m : Move} {w2 : World} {c : HChr}
    (h : hDealDamage w r m = some (w2, c)) :
    w.get? r = some c ∧ w2.length = w.length ∧
    (∀ j, (w2.get? j).map HChr.enemy = (w.get? j).map HChr.enemy) ∧
    ∀ j, j ≠ r → j ≠ c.enemy → w2.get? j = w.get? j := by
  unfold hDealDamage at h
  split at h
  · exact Option.noConfusion h
  rename_i c0 hg
  dsimp only at h
  split at h
  · exact Option.noConfusion h
  rename_i e hge
  injection h with h
  injection h with hw hc
  subst hc
  subst hw
  have ha1 : (w.get? r).map HChr.enemy =
      some (HChr.enemy { c0 with sp := c0.sp - (sp_cost c0.cls m : Int) }) := by
    rw [hg]
    rfl
  have ha2 : ((w.set r { c0 with sp := c0.sp - (sp_cost c0.cls m : Int) }).get?
        c0.enemy).map HChr.enemy =
      some (HChr.enemy { e with
        hp := max (e.hp - ((damage_of c0.cls m : Int) - (defense e.cls : Int))) 0 }) := by
    rw [hge]
    rfl
  refine ⟨hg, ?_, ?_, ?_⟩
  · simp [List.length_set]
  · intro j
    rw [set_enemy_congr ha2 j, set_enemy_congr ha1 j]
  · intro j hjr hje
    rw [List.get?_set_ne _ _ (Ne.symm hje), List.get?_set_ne _ _ (Ne.symm hjr)]

/-- A move by the head of a closed queue keeps the queue closed over the new
store, preserves the store's length, and writes only the participants' cells. -/
theorem hMove_frame {q : HQueue} {w : World} {m : Move} {q2 : HQueue} {w2 : World}
    {r1 r2 : Nat} (hc : HClosed q w r1 r2)
    (h : hMove q w m = some (q2, w2)) :
    HClosed q2 w2 r1 r2 ∧ w2.length = w.length ∧
    ∀ j, j ≠ r1 → j ≠ r2 → w2.get? j = w.get? j := by
  unfold hMove at h
  dsimp only at h
  split at h
  · exact Option.noConfusion h
  rename_i r hpk
  split at h
  · exact Option.noConfusion h
  rename_i wd c hdd
  obtain ⟨hgr, hlen, hen, hframe⟩ := hDealDamage_frame hdd
  have hr12 : r = r1 ∨ r = r2 := hPeek_cases hc hpk
  have hce : c.enemy = r1 ∨ c.enemy = r2 := by
    obtain ⟨hp1, hp2, h3, h4, h5, he1, he2, hcont⟩ := hc
    rcases hr12 with rfl | rfl
    · rw [hgr] at he1
      simp only [Option.map_some'] at he1
      exact Or.inr (Option.some.inj he1)
    · rw [hgr] at he2
      simp only [Option.map_some'] at he2
      exact Or.inl (Option.some.inj he2)
  have hq1 : HClosed (hClean q w) wd r1 r2 :=
    HClosed_store_congr (hClean_closed hc) hlen hen
  have hframe2 : ∀ j, j ≠ r1 → j ≠ r2 → wd.get? j = w.get? j := by
    intro j hj1 hj2
    refine hframe j ?_ ?_
    · rcases hr12 with rfl | rfl
      · exact hj1
      · exact hj2
    · rcases hce with hce | hce
      · rw [hce]
        exact hj1
      · rw [hce]
        exact hj2
  split at h
  · injection h with h
    injection h with hq hw
    subst hq
    subst hw
    exact ⟨hAddRef_closed hq1 hr12, hlen, hframe2⟩
  · injection h with h
    injection h with hq hw
    subst hq
    subst hw
    exact ⟨hAddRef_closed hq1 hr12, hlen, hframe2⟩
  · injection h with h
    injection h with hq hw
    subst hq
    subst hw
    exact ⟨hAddRef_closed (hAddRef_closed hq1 hr12) hr12, hlen, hframe2⟩
  · injection h with h
    injection h with hq hw
    subst hq
    subst hw
    exact ⟨hAddRef_closed (hAddRef_closed hq1 hce) hr12, hlen, hframe2⟩

/-- One public operation on a closed queue keeps it closed, never shrinks the
store, and leaves every store cell other than the two participants' unchanged. -/
theorem HStep_frame {op : HOp} {q : HQueue} {w : World} {q2 : HQueue} {w2 : World}
    {r1 r2 : Nat} (hc : HClosed q w r1 r2)
    (h : HStep op (q, w) = some (q2, w2)) :
    HClosed q2 w2 r1 r2 ∧ w.length ≤ w2.length ∧
    ∀ j, j < w.length → j ≠ r1 → j ≠ r2 → w2.get? j = w.get? j := by
  cases op with
  | attack =>
    obtain ⟨h1, h2, h3⟩ := hMove_frame hc h
    exact ⟨h1, le_of_eq h2.symm, fun j _ hj1 hj2 => h3 j hj1 hj2⟩
  | special =>
    obtain ⟨h1, h2, h3⟩ := hMove_frame hc h
    exact ⟨h1, le_of_eq h2.symm, fun j _ hj1 hj2 => h3 j hj1 hj2⟩
  | addP1 =>
    simp only [HStep] at h
    split at h
    · exact Option.noConfusion h
    rename_i r hp
    injection h with h
    injection h with hq hw
    subst hq
    subst hw
    have hr : r = r1 := by
      rw [hc.1] at hp
      exact (Option.some.inj hp).symm
    subst hr
    exact ⟨hAddRef_closed hc (Or.inl rfl), Nat.le_refl _, fun j _ _ _ => rfl⟩
  | addP2 =>
    simp only [HStep] at h
    split at h
    · exact Option.noConfusion h
    rename_i r hp
    injection h with h
    injection h with hq hw
    subst hq
    subst hw
    have hr : r = r2 := by
      rw [hc.2.1] at hp
      exact (Option.some.inj hp).symm
    subst hr
    exact ⟨hAddRef_closed hc (Or.inr rfl), Nat.le_refl _, fun j _ _ _ => rfl⟩
  | remove =>
    simp only [HStep] at h
    split at h
    · exact Option.noConfusion h
    rename_i x t hh
    injection h with h
    injection h with hq hw
    subst hq
    subst hw
    obtain ⟨hp1, hp2, h3, h4, h5, h6, h7, hcont⟩ := hClean_closed hc
    refine ⟨⟨hp1, hp2, h3, h4, h5, h6, h7, ?_⟩, Nat.le_refl _, fun j _ _ _ => rfl⟩
    intro s hs
    refine hcont s ?_
    rw [hh]
    exact List.mem_cons_of_mem x hs
  | peek =>
    simp only [HStep, Option.some.injEq, Prod.mk.injEq] at h
    obtain ⟨hq, hw⟩ := h
    subst hq
    subst hw
    exact ⟨hClean_closed hc, Nat.le_refl _, fun j _ _ _ => rfl⟩
  | is_empty =>
    simp only [HStep, Option.some.injEq, Prod.mk.injEq] at h
    obtain ⟨hq, hw⟩ := h
    subst hq
    subst hw
    exact ⟨hClean_closed hc, Nat.le_refl _, fun j _ _ _ => rfl⟩
  | is_over =>
    simp only [HStep] at h
    split at h
    · simp only [Option.some.injEq, Prod.mk.injEq] at h
      obtain ⟨hq, hw⟩ := h
      subst hq
      subst hw
      exact ⟨hClean_closed hc, Nat.le_refl _, fun j _ _ _ => rfl⟩
    · split at h
      · exact Option.noConfusion h
      · simp only [Option.some.injEq, Prod.mk.injEq] at h
        obtain ⟨hq, hw⟩ := h
        subst hq
        subst hw
        exact ⟨hClean_closed hc, Nat.le_refl _, fun j _ _ _ => rfl⟩
  | copy =>
    obtain ⟨hp1, hp2, h3, h4, h5, h6, h7, hcont⟩ := hc
    cases hg1 : w.get? r1 with
    | none =>
      rw [hg1] at h6
      exact absurd h6 (by simp)
    | some c1 =>
      cases hg2 : w.get? r2 with
      | none =>
        rw [hg2] at h7
        exact absurd h7 (by simp)
      | some c2 =>
        simp only [HStep] at h
        unfold hCopy at h
        rw [hp1, hp2] at h
        dsimp only at h
        rw [hg1, hg2] at h
        dsimp only at h
        injection h with h
        injection h with hq hw
        subst hq
        subst hw
        have hle : w.length ≤ (w ++ [{ c1 with enemy := w.length + 1 },
            { c2 with enemy := w.length }]).length := by
          simp
        refine ⟨⟨hp1, hp2, lt_of_lt_of_le h3 hle, lt_of_lt_of_le h4 hle, h5,
            ?_, ?_, hcont⟩, hle, ?_⟩
        · rw [List.get?_append h3]
          exact h6
        · rw [List.get?_append h4]
          exact h7
        · intro j hj _ _
          exact List.get?_append hj

/-- A whole operation sequence on a closed queue keeps it closed, never shrinks
the store, and leaves every cell other than the two participants' unchanged. -/
theorem HExec_frame {ops : List HOp} {q : HQueue} {w : World} {q2 : HQueue}
    {w2 : World} {r1 r2 : Nat} (hc : HClosed q w r1 r2)
    (h : HExec ops (q, w) = some (q2, w2)) :
    HClosed q2 w2 r1 r2 ∧ w.length ≤ w2.length ∧
    ∀ j, j < w.length → j ≠ r1 → j ≠ r2 → w2.get? j = w.get? j := by
  induction ops generalizing q w with
  | nil =>
    simp only [HExec, Option.some.injEq, Prod.mk.injEq] at h
    obtain ⟨hq, hw⟩ := h
    subst hq
    subst hw
    exact ⟨hc, Nat.le_refl _, fun j _ _ _ => rfl⟩
  | cons op ops ih =>
    simp only [HExec] at h
    split at h
    · exact Option.noConfusion h
    rename_i p hstep
    obtain ⟨q1, w1⟩ := p
    obtain ⟨hc1, hlen1, hf1⟩ := HStep_frame hc hstep
    obtain ⟨hc2, hlen2, hf2⟩ := ih hc1 h
    refine ⟨hc2, le_trans hlen1 hlen2, ?_⟩
    intro j hj hj1 hj2
    rw [hf2 j (lt_of_lt_of_le hj hlen1) hj1 hj2, hf1 j hj hj1 hj2]

/-- `copy()` on a closed queue produces a queue closed over the two fresh
cells appended to the store; the original queue stays closed over the grown
store, whose first `w.length` cells are unchanged. -/
theorem hCopy_closed {q : HQueue} {w : World} {r1 r2 : Nat} {q2 : HQueue}
    {w2 : World} (hc : HClosed q w r1 r2) (h : hCopy q w = some (q2, w2)) :
    HClosed q2 w2 w.length (w.length + 1) ∧ HClosed q w2 r1 r2 ∧
    w2.length = w.length + 2 ∧ ∀ j, j < w.length → w2.get? j = w.get? j := by
  obtain ⟨hp1, hp2, h3, h4, h5, h6, h7, hcont⟩ := hc
  cases hg1 : w.get? r1 with
  | none =>
    rw [hg1] at h6
    exact absurd h6 (by simp)
  | some c1 =>
    cases hg2 : w.get? r2 with
    | none =>
      rw [hg2] at h7
      exact absurd h7 (by simp)
    | some c2 =>
      unfold hCopy at h
      rw [hp1, hp2] at h
      dsimp only at h
      rw [hg1, hg2] at h
      dsimp only at h
      injection h with h
      injection h with hq hw
      subst hq
      subst hw
      have e1 : (w ++ [{ c1 with enemy := w.length + 1 },
          { c2 with enemy := w.length }]).get? w.length =
          some { c1 with enemy := w.length + 1 } := by
        rw [List.get?_append_right (Nat.le_refl _)]
        simp
      have e2 : (w ++ [{ c1 with enemy := w.length + 1 },
          { c2 with enemy := w.length }]).get? (w.length + 1) =
          some { c2 with enemy := w.length } := by
        rw [List.get?_append_right (Nat.le_succ _)]
        have hs : w.length + 1 - w.length = 1 := by omega
        rw [hs]
        rfl
      have hlen : (w ++ [{ c1 with enemy := w.length + 1 },
          { c2 with enemy := w.length }]).length = w.length + 2 := by
        simp
      refine ⟨⟨rfl, rfl, ?_, ?_, by omega, ?_, ?_, ?_⟩,
        ⟨hp1, hp2, ?_, ?_, h5, ?_, ?_, hcont⟩, hlen, ?_⟩
      · rw [hlen]
        omega
      · rw [hlen]
        omega
      · rw [e1]
        rfl
      · rw [e2]
        rfl
      · intro r hr
        rcases List.mem_map.mp hr with ⟨x, hx, hfx⟩
        rcases hcont x hx with rfl | rfl
        · left
          rw [← hfx]
          simp
        · right
          rw [← hfx]
          rw [if_neg (Ne.symm h5)]
      · rw [hlen]
        omega
      · rw [hlen]
        omega
      · rw [List.get?_append h3]
        exact h6
      · rw [List.get?_append h4]
        exact h7
      · intro j hj
        exact List.get?_append hj

/-- **C8**: `copy()` yields deep independence.  For every closed queue (two
established, mutually linked participants), after a `copy()` any sequence of
public operations (moves, adds, remove, peek, is_empty, is_over, further
copies) run on the copy leaves every cell of the original store - in
particular both original combatants' hp and sp - unchanged, and any sequence
run on the original leaves the copy's two fresh cells unchanged. -/
theorem c8_copy_deep_independence {q : HQueue} {w : World} {r1 r2 : Nat}
    {qc : HQueue} {wc : World} {ops ops2 : List HOp}
    {qA : HQueue} {wA : World} {qB : HQueue} {wB : World}
    (hc : HClosed q w r1 r2) (hcopy : hCopy q w = some (qc, wc))
    (hA : HExec ops (qc, wc) = some (qA, wA))
    (hB : HExec ops2 (q, wc) = some (qB, wB)) :
    (∀ j, j < w.length → wA.get? j = w.get? j) ∧
    wB.get? w.length = wc.get? w.length ∧
    wB.get? (w.length + 1) = wc.get? (w.length + 1) := by
  obtain ⟨hcc, hcorig, hlen, hold⟩ := hCopy_closed hc hcopy
  obtain ⟨hA1, hA2, hA3⟩ := HExec_frame hcc hA
  obtain ⟨hB1, hB2, hB3⟩ := HExec_frame hcorig hB
  have h3 : r1 < w.length := hc.2.2.1
  have h4 : r2 < w.length := hc.2.2.2.1
  refine ⟨?_, ?_, ?_⟩
  · intro j hj
    rw [hA3 j (by omega) (by omega) (by omega), hold j hj]
  · exact hB3 w.length (by omega) (by omega) (by omega)
  · exact hB3 (w.length + 1) (by omega) (by omega) (by omega)

/-- Witness for C8: a rogue-vs-mage world; an `attack` on the copy leaves both
original cells untouched, and a `special_attack` on the original leaves both
copied cells untouched. -/
theorem c8_witness :
    (∀ j, j < ([⟨CClass.rogue, 100, 100, 1⟩, ⟨CClass.mage, 100, 100, 0⟩] : World).length →
      ([⟨CClass.rogue, 100, 100, 1⟩, ⟨CClass.mage, 100, 100, 0⟩,
        ⟨CClass.rogue, 100, 97, 3⟩, ⟨CClass.mage, 93, 100, 2⟩] : World).get? j =
      ([⟨CClass.rogue, 100, 100, 1⟩, ⟨CClass.mage, 100, 100, 0⟩] : World).get? j) ∧
    ([⟨CClass.rogue, 100, 90, 1⟩, ⟨CClass.mage, 88, 100, 0⟩,
      ⟨CClass.rogue, 100, 100, 3⟩, ⟨CClass.mage, 100, 100, 2⟩] : World).get?
        ([⟨CClass.rogue, 100, 100, 1⟩, ⟨CClass.mage, 100, 100, 0⟩] : World).length =
      ([⟨CClass.rogue, 100, 100, 1⟩, ⟨CClass.mage, 100, 100, 0⟩,
        ⟨CClass.rogue, 100, 100, 3⟩, ⟨CClass.mage, 100, 100, 2⟩] : World).get?
        ([⟨CClass.rogue, 100, 100, 1⟩, ⟨CClass.mage, 100, 100, 0⟩] : World).length ∧
    ([⟨CClass.rogue, 100, 90, 1⟩, ⟨CClass.mage, 88, 100, 0⟩,
      ⟨CClass.rogue, 100, 100, 3⟩, ⟨CClass.mage, 100, 100, 2⟩] : World).get?
        (([⟨CClass.rogue, 100, 100, 1⟩, ⟨CClass.mage, 100, 100, 0⟩] : World).length + 1) =
      ([⟨CClass.rogue, 100, 100, 1⟩, ⟨CClass.mage, 100, 100, 0⟩,
        ⟨CClass.rogue, 100, 100, 3⟩, ⟨CClass.mage, 100, 100, 2⟩] : World).get?
        (([⟨CClass.rogue, 100, 100, 1⟩, ⟨CClass.mage, 100, 100, 0⟩] : World).length + 1) :=
  @c8_copy_deep_independence ⟨[0, 1], some 0, some 1⟩
    [⟨CClass.rogue, 100, 100, 1⟩, ⟨CClass.mage, 100, 100, 0⟩] 0 1
    ⟨[2, 3], some 2, some 3⟩
    [⟨CClass.rogue, 100, 100, 1⟩, ⟨CClass.mage, 100, 100, 0⟩,
      ⟨CClass.rogue, 100, 100, 3⟩, ⟨CClass.mage, 100, 100, 2⟩]
    [HOp.attack] [HOp.special]
    ⟨[2, 3, 2], some 2, some 3⟩
    [⟨CClass.rogue, 100, 100, 1⟩, ⟨CClass.mage, 100, 100, 0⟩,
      ⟨CClass.rogue, 100, 97, 3⟩, ⟨CClass.mage, 93, 100, 2⟩]
    ⟨[0, 1, 0, 0], some 0, some 1⟩
    [⟨CClass.rogue, 100, 90, 1⟩, ⟨CClass.mage, 88, 100, 0⟩,
      ⟨CClass.rogue, 100, 100, 3⟩, ⟨CClass.mage, 100, 100, 2⟩]
    (by decide) (by decide) (by decide) (by decide)
